import Mathlib

/-!
# Verification of the scrtdd double-difference relocation core

Shallow embedding, in Lean 4, of the parts of `src/apps/scrtdd/hypodd.cpp`
referenced by the specification claims, together with theorems settling each
claim.  Pure C++ functions are translated to Lean functions; stateful code
(the waveform cache) is modelled by explicit state passing.  C++ `double`
arithmetic is idealised as exact arithmetic (`ℚ` where the logic is purely
order/comparison based, `ℝ` where square roots appear); `int` becomes `ℤ`,
sizes become `ℕ`.  `NaN` results are modelled with `Option` (`none` = NaN /
failure), matching the code's use of `std::nan` as an "absent" marker.
-/

namespace Scrtdd

/-! ## nextPowerOf2 / writeTrace (hypodd.cpp lines 116-142)

```cpp
template <class T>
T nextPowerOf2(T a, T min=1, T max=1<<31)
{
    int b = min;
    while (b < a)
    {
        b <<= 1;
        if (b > max)
            return -1;
    }
    return b;
}
```
The loop variable `b` is modelled as `ℕ` (it starts from the non-negative
`min` and only doubles); `a` and `max` keep the signed type `ℤ`.  When
`b = 0 < a` the C++ loop never terminates; the model returns `-1` in that
(unreachable from `writeTrace`, which passes `min = 128`) corner so that the
function is total. -/

def nextPowerOf2Loop (a mx : ℤ) (b : ℕ) : ℤ :=
  if (b : ℤ) < a then
    if hb : b = 0 then -1
    else if (2 * b : ℤ) > mx then -1
    else nextPowerOf2Loop a mx (2 * b)
  else b
termination_by (a - b).toNat
decreasing_by
  have hb1 : 1 ≤ b := Nat.one_le_iff_ne_zero.mpr hb
  omega

def nextPowerOf2 (a : ℤ) (mn : ℕ) (mx : ℤ) : ℤ :=
  nextPowerOf2Loop a mx mn

/-- `writeTrace` (lines 131-142): computes the record length from the data
payload size in bytes and writes the record only when the computed length is
positive.
```cpp
int reclen = msRec.data()->size()*msRec.data()->bytes() + 64;
reclen = nextPowerOf2<int>(reclen, 128, 1048576);
if (reclen > 0) { msRec.setOutputRecordLength(reclen); msRec.write(ofs); }
```
Result: `some reclen` when the trace is written with that record length,
`none` when the write is skipped. -/
def writeTraceRecLen (payloadBytes : ℕ) : Option ℤ :=
  let reclen := nextPowerOf2 ((payloadBytes : ℤ) + 64) 128 1048576
  if reclen > 0 then some reclen else none

/-! ## HddEllipsoid::isInQuadrant (hypodd.cpp lines 293-308)

The in-source documentation (lines 264-279) states:
```
 * Quadrants (1-4 above depth, 5-8 below depth):
 *
 *        lat
 *         ^
 *    2/6  |   1/5
 * -----------------> lon
 *    3/7  |   4/8
```
The function itself (translated literally below; `none` models the
`std::invalid_argument` throw for a quadrant outside 1-8):
```cpp
if (depth < _ellipsoid.depth && set<int>{1,2,3,4}.count(quadrant) != 0) return false;
if (depth > _ellipsoid.depth && set<int>{5,6,7,8}.count(quadrant) != 0) return false;
if (lon < _ellipsoid.lon && set<int>{1,4,5,8}.count(quadrant) != 0) return false;
if (lon > _ellipsoid.lon && set<int>{2,3,6,7}.count(quadrant) != 0) return false;
if (lat < _ellipsoid.lat && set<int>{1,2,5,6}.count(quadrant) != 0) return false;
if (lat > _ellipsoid.lat && set<int>{3,4,7,8}.count(quadrant) != 0) return false;
return true;
``` -/

def isInQuadrant (olat olon odepth lat lon depth : ℚ) (q : ℤ) : Option Bool :=
  if q < 1 ∨ q > 8 then none
  else some (decide (
    ¬ (depth < odepth ∧ (q = 1 ∨ q = 2 ∨ q = 3 ∨ q = 4)) ∧
    ¬ (depth > odepth ∧ (q = 5 ∨ q = 6 ∨ q = 7 ∨ q = 8)) ∧
    ¬ (lon < olon ∧ (q = 1 ∨ q = 4 ∨ q = 5 ∨ q = 8)) ∧
    ¬ (lon > olon ∧ (q = 2 ∨ q = 3 ∨ q = 6 ∨ q = 7)) ∧
    ¬ (lat < olat ∧ (q = 1 ∨ q = 2 ∨ q = 5 ∨ q = 6)) ∧
    ¬ (lat > olat ∧ (q = 3 ∨ q = 4 ∨ q = 7 ∨ q = 8))))

/-- Invariant-carrying specification of the `nextPowerOf2` loop for the
`writeTrace` call (`min = 128`, `max = 1048576`): starting from any
power-of-two multiple of 128 below the cap, with target `a` at most the cap,
the loop returns the least power of two of that form that is `≥ a`. -/
theorem nextPowerOf2Loop_spec (a : ℤ) (ha : 0 < a) (hamx : a ≤ 1048576) :
    ∀ b : ℕ, (∃ k : ℕ, (b : ℤ) = 128 * 2 ^ k) → (b : ℤ) ≤ 1048576 →
      ((b : ℤ) = 128 ∨ (b : ℤ) < 2 * a) →
      ∃ r : ℤ, nextPowerOf2Loop a 1048576 b = r ∧ (∃ k : ℕ, r = 128 * 2 ^ k) ∧
        a ≤ r ∧ r ≤ 1048576 ∧ (r = 128 ∨ r < 2 * a) := by
  suffices h : ∀ (N : ℕ) (b : ℕ), (a - b).toNat ≤ N →
      (∃ k : ℕ, (b : ℤ) = 128 * 2 ^ k) → (b : ℤ) ≤ 1048576 →
      ((b : ℤ) = 128 ∨ (b : ℤ) < 2 * a) →
      ∃ r : ℤ, nextPowerOf2Loop a 1048576 b = r ∧ (∃ k : ℕ, r = 128 * 2 ^ k) ∧
        a ≤ r ∧ r ≤ 1048576 ∧ (r = 128 ∨ r < 2 * a) by
    intro b h1 h2 h3
    exact h (a - b).toNat b le_rfl h1 h2 h3
  intro N
  induction N with
  | zero =>
    intro b hN hbpow hble hmin
    obtain ⟨k, hk⟩ := hbpow
    have hba : ¬ ((b : ℤ) < a) := by omega
    exact ⟨b, by rw [nextPowerOf2Loop, if_neg hba], ⟨k, hk⟩,
      not_lt.mp hba, hble, hmin⟩
  | succ N ihN =>
    intro b hN hbpow hble hmin
    obtain ⟨k, hk⟩ := hbpow
    have h2k : (1 : ℤ) ≤ 2 ^ k := one_le_pow₀ (by norm_num)
    have hb128 : (128 : ℤ) ≤ (b : ℤ) := by rw [hk]; nlinarith
    by_cases hba : (b : ℤ) < a
    · -- loop body runs: b doubles
      have hbne : b ≠ 0 := by omega
      have hk13 : k ≤ 12 := by
        by_contra hge
        push_neg at hge
        have h1 : (2 : ℤ) ^ 13 ≤ 2 ^ k := pow_le_pow_right₀ (by norm_num) hge
        have : (1048576 : ℤ) ≤ (b : ℤ) := by rw [hk]; nlinarith
        omega
      have h2b : ((2 * b : ℕ) : ℤ) ≤ 1048576 := by
        have h1 : (2 : ℤ) ^ (k + 1) ≤ 2 ^ 13 := pow_le_pow_right₀ (by norm_num) (by omega)
        rw [pow_succ] at h1
        push_cast
        rw [hk]
        norm_num at h1 ⊢
        linarith
      obtain ⟨r, hr, hrpow, har, hrmx, hrmin⟩ := ihN (2 * b) (by omega)
        ⟨k + 1, by push_cast; rw [hk]; ring⟩ h2b (Or.inr (by push_cast; linarith))
      refine ⟨r, ?_, hrpow, har, hrmx, hrmin⟩
      rw [nextPowerOf2Loop, if_pos hba, dif_neg hbne,
        if_neg (by push_cast at h2b ⊢; omega)]
      exact hr
    · -- loop exits: returns b
      exact ⟨b, by rw [nextPowerOf2Loop, if_neg hba], ⟨k, hk⟩,
        not_lt.mp hba, hble, hmin⟩

set_option maxRecDepth 8000 in
/-- C8 counterexample: a trace whose mini-SEED payload+64 exceeds 1,048,576
bytes (here payload = 1,048,513 bytes, so payload+64 = 1,048,577) is NOT
written at all: `nextPowerOf2` returns -1 and `writeTrace` skips the write.
The claim states it would be written with record length 1,048,576. -/
theorem writeTrace_oversize_not_written : writeTraceRecLen 1048513 = none := by
  have h : nextPowerOf2Loop 1048577 1048576 128 = -1 := by
    simp [nextPowerOf2Loop]
  simp [writeTraceRecLen, nextPowerOf2, h]

/-- C8 (amended): for every trace whose payload+64 is at most 1,048,576
bytes, the record is written and its record length is the least power of two
that is ≥ payload+64 and ≥ 128 (i.e. the next power of two of payload+64,
clamped below to 128 and never exceeding 1,048,576); a trace whose
payload+64 exceeds 1,048,576 is not written (see the counterexample). -/
theorem writeTrace_reclen_spec (payload : ℕ)
    (h : (payload : ℤ) + 64 ≤ 1048576) :
    ∃ r : ℤ, writeTraceRecLen payload = some r ∧
      (∃ k : ℕ, r = 128 * 2 ^ k) ∧ (payload : ℤ) + 64 ≤ r ∧ r ≤ 1048576 ∧
      (r = 128 ∨ r < 2 * ((payload : ℤ) + 64)) := by
  obtain ⟨r, hr, hrpow, har, hrmx, hrmin⟩ :=
    nextPowerOf2Loop_spec ((payload : ℤ) + 64) (by positivity) h 128
      ⟨0, by norm_num⟩ (by norm_num) (Or.inl (by norm_num))
  have hrpos : (0 : ℤ) < r := by
    obtain ⟨k, hk⟩ := hrpow
    rw [hk]; positivity
  refine ⟨r, ?_, hrpow, har, hrmx, hrmin⟩
  unfold writeTraceRecLen nextPowerOf2
  rw [hr, if_pos hrpos]

/-- C8 witness: payload 100 bytes gives record length 164 → next power of
two is below the 128 floor, so the record length is 128. -/
theorem writeTrace_reclen_spec_witness :
    (100 : ℤ) + 64 ≤ 1048576 ∧
    ∃ r : ℤ, writeTraceRecLen 100 = some r ∧
      (∃ k : ℕ, r = 128 * 2 ^ k) ∧ (100 : ℤ) + 64 ≤ r ∧ r ≤ 1048576 ∧
      (r = 128 ∨ r < 2 * ((100 : ℤ) + 64)) :=
  ⟨by norm_num, writeTrace_reclen_spec 100 (by norm_num)⟩

/-- C9: the quadrant predicate contradicts its own documentation comment
("Quadrants (1-4 above depth, 5-8 below depth)") and the spec: a point
strictly shallower than the origin depth (lat = 1 > 0, lon = 1 > 0,
depth = -1 < 0 around origin (0,0,0)) is REJECTED from octant 1 (and from
all of 1-4) and ACCEPTED in octant 5, i.e. the code puts above-origin
points in octants 5-8, the opposite of the claim. -/
theorem isInQuadrant_depth_inverted :
    isInQuadrant 0 0 0 1 1 (-1) 1 = some false ∧
    isInQuadrant 0 0 0 1 1 (-1) 2 = some false ∧
    isInQuadrant 0 0 0 1 1 (-1) 3 = some false ∧
    isInQuadrant 0 0 0 1 1 (-1) 4 = some false ∧
    isInQuadrant 0 0 0 1 1 (-1) 5 = some true := by
  decide

/-! ## HypoDD::filterOutPhases (hypodd.cpp lines 808-918)

A phase record, reduced to the fields the selection logic reads.  The source
iterates the catalog events in id order and, within an event, the phases in
insertion order; the input list below is that flattened sequence. -/

structure CPhase where
  eventId : ℕ
  stationId : String
  type : String
deriving DecidableEq

/-- The inner scan of `filterOutPhases`: look through the already selected
phases (the `equal_range(event.id)` portion is expressed by comparing
`eventId` in the condition) for one that the new phase should replace:
```cpp
if ( existingPhase.type == phase.type           &&
     existingPhase.stationId == phase.stationId &&
     existingPriority < priority ) { existingPhase = phase; inserted = true; break; }
...
if ( ! inserted ) filteredP.emplace(phase.eventId, phase);
```
`priority` is `std::distance(keep.begin(), find(keep, type))`, i.e.
`List.indexOf`. -/
def phaseInsert (keep : List String) (ph : CPhase) : List CPhase → List CPhase
  | [] => [ph]
  | ex :: rest =>
    if ex.eventId = ph.eventId ∧ ex.type = ph.type ∧ ex.stationId = ph.stationId ∧
        List.indexOf ex.type keep < List.indexOf ph.type keep
    then ph :: rest
    else ex :: phaseInsert keep ph rest

/-- `filterOutPhases` (lines 808-918): keep the phases whose type is in the
P (resp. S) accept list, using `phaseInsert` for the priority-replacement
scan, then rename every selected phase type to the generic "P" / "S". -/
def filterOutPhases (phases : List CPhase) (Pkeep Skeep : List String) :
    List CPhase :=
  let filtered := phases.foldl
    (fun (acc : List CPhase × List CPhase) ph =>
      if ph.type ∈ Pkeep then (phaseInsert Pkeep ph acc.1, acc.2)
      else if ph.type ∈ Skeep then (acc.1, phaseInsert Skeep ph acc.2)
      else acc)
    ([], [])
  filtered.1.map (fun ph => { ph with type := "P" }) ++
    filtered.2.map (fun ph => { ph with type := "S" })

/-- C2: `filterOutPhases` does NOT guarantee at most one phase per
(event, station, phase-type) triple, contradicting the function's own
documentation comment ("for the same event/station pair make sure to have
only one phase").  The replacement condition requires
`existingPhase.type == phase.type && existingPriority < priority`, but equal
types have equal priorities, so the replacement branch is dead code: with
accepted P types `["P", "Pg"]`, a station reporting both a "P" and a "Pg"
pick for the same event keeps both, and both are renamed to "P". -/
theorem filterOutPhases_duplicate_triple :
    ((filterOutPhases [⟨1, "NET.ST", "P"⟩, ⟨1, "NET.ST", "Pg"⟩]
        ["P", "Pg"] []).filter
      (fun ph => ph.eventId = 1 ∧ ph.stationId = "NET.ST" ∧
        ph.type = "P")).length = 2 := by
  decide

/-! ## HypoDD::S2Nratio (hypodd.cpp lines 2619-2661)

```cpp
auto secToSample = [&, freq, size](double sec) {
    return std::min(std::max(std::round(sec * freq), 0.), size-1.);
};
const double pickOffset = (pickTime - dataStartTime).length();
const int noiseStart  = secToSample(noiseOffsetStart  + pickOffset);
... (noiseEnd, signalStart, signalEnd likewise)
if ( (std::min({noiseStart,noiseEnd,signalStart,signalEnd}) < 0)    ||
     (std::max({noiseStart,noiseEnd,signalStart,signalEnd}) >= size) )
    return -1;
double noiseMax = -1.0;
for (int i = noiseStart; i < noiseEnd; i++) noiseMax = max(abs(data[i]), noiseMax);
double signalMax = -1.0;  // same loop over the signal window
return signalMax/noiseMax;
```
`none` below models the `-1` error return. -/

/-- `std::round`: round half away from zero.  The C++ lambda clamps the
(integral-valued) rounded double with `max`/`min` against `0.` and
`size-1.` and then converts to `int`; on integral values that conversion is
exact, so the whole computation is carried out in `ℤ`. -/
def roundHalfAway (q : ℚ) : ℤ := if q < 0 then -⌊-q + 1/2⌋ else ⌊q + 1/2⌋

def secToSample (freq : ℚ) (size : ℕ) (sec : ℚ) : ℤ :=
  min (max (roundHalfAway (sec * freq)) 0) ((size : ℤ) - 1)

/-- `for (i = lo; i < hi; i++) m = max(|data[i]|, m)` starting from -1. -/
def maxAbsRange (data : List ℚ) (lo hi : ℤ) : ℚ :=
  (List.range (hi - lo).toNat).foldl
    (fun m i => max |data.getD (lo + i).toNat 0| m) (-1)

def S2Nratio (data : List ℚ) (freq : ℚ)
    (pickOffset noiseOffsetStart noiseOffsetEnd signalOffsetStart
      signalOffsetEnd : ℚ) : Option ℚ :=
  let size := data.length
  let noiseStart := secToSample freq size (noiseOffsetStart + pickOffset)
  let noiseEnd := secToSample freq size (noiseOffsetEnd + pickOffset)
  let signalStart := secToSample freq size (signalOffsetStart + pickOffset)
  let signalEnd := secToSample freq size (signalOffsetEnd + pickOffset)
  if min (min (min noiseStart noiseEnd) signalStart) signalEnd < 0 ∨
      max (max (max noiseStart noiseEnd) signalStart) signalEnd ≥ (size : ℤ)
  then none
  else some (maxAbsRange data signalStart signalEnd /
    maxAbsRange data noiseStart noiseEnd)

/-- C10: every window index computed by `secToSample` is clamped into
`[0, size-1]` before the bounds check, so for every trace with at least one
sample the "windows exceed waveform boundaries" error branch returning -1 is
unreachable: out-of-range noise/signal offsets are silently clamped to the
trace boundaries, never reported as an error. -/
theorem S2Nratio_error_branch_unreachable (data : List ℚ) (freq : ℚ)
    (pickOffset nS nE sS sE : ℚ) (h : 1 ≤ data.length) :
    (∀ sec : ℚ, 0 ≤ secToSample freq data.length sec ∧
      secToSample freq data.length sec ≤ (data.length : ℤ) - 1) ∧
    ∃ r : ℚ, S2Nratio data freq pickOffset nS nE sS sE = some r := by
  have hclamp : ∀ sec : ℚ, 0 ≤ secToSample freq data.length sec ∧
      secToSample freq data.length sec ≤ (data.length : ℤ) - 1 := by
    intro sec
    unfold secToSample
    have h1 : (1 : ℤ) ≤ (data.length : ℤ) := by exact_mod_cast h
    constructor
    · apply le_min (le_max_right _ _) (by omega)
    · exact min_le_right _ _
  refine ⟨hclamp, ?_⟩
  rw [S2Nratio]
  have g1 := hclamp (nS + pickOffset)
  have g2 := hclamp (nE + pickOffset)
  have g3 := hclamp (sS + pickOffset)
  have g4 := hclamp (sE + pickOffset)
  rw [if_neg (by push_neg; constructor <;> [skip; skip] <;> omega)]
  exact ⟨_, rfl⟩

/-- Witness for `S2Nratio_error_branch_unreachable`: a two-sample trace with
all offsets 0. -/
theorem S2Nratio_error_branch_unreachable_witness :
    1 ≤ ([(1 : ℚ), 2]).length ∧
    ((∀ sec : ℚ, 0 ≤ secToSample 1 ([(1 : ℚ), 2]).length sec ∧
        secToSample 1 ([(1 : ℚ), 2]).length sec ≤
          (([(1 : ℚ), 2]).length : ℤ) - 1) ∧
      ∃ r : ℚ, S2Nratio [(1 : ℚ), 2] 1 0 0 0 0 0 = some r) :=
  ⟨by decide, S2Nratio_error_branch_unreachable [(1 : ℚ), 2] 1 0 0 0 0 0
    (by decide)⟩

/-! ## HypoDD::selectNeighbouringEvents - shell/octant sweep
(hypodd.cpp lines 1647-1716)

```cpp
CatalogPtr neighboringEventCat = new Catalog();
int numNeighbors = 0;
bool workToDo = true;
while ( workToDo )
{
    for(int elpsNum = ellipsoids.size() -1; elpsNum >= 0;  elpsNum--)
    {
        for (int quadrant : quadrants)
        {
            if ( selectedEvents.empty() || (maxNumNeigh > 0 && numNeighbors >= maxNumNeigh) )
            {
                workToDo = false;
                break;
            }
            for (auto it = selectedEvents.begin(); it != selectedEvents.end(); it++)
            {
                ... bool found = <geometric shell/octant test> ...
                if ( found )
                {
                    neighboringEventCat->copyEvent(ev, srcCat, true);
                    numNeighbors++;
                    selectedEvents.erase(it);
                    break;
                }
            }
        }
    }
}
```
The candidate pool `selectedEvents` (a distance-ordered multimap) is a list
`selected`; the purely geometric membership test (`isOutside` for the
innermost shell, `isOutside ∧ isInside` otherwise - floating-point
trigonometry) is abstracted as a boolean predicate `found cand shell quad`
on candidates and (shell, octant) cells; the `while` loop, which the code
does not bound, is modelled with fuel (the quota bound proved below holds
for every fuel value). -/

structure SweepState (γ : Type) where
  selected : List γ
  numNeighbors : ℤ
  neighbors : List γ
  workToDo : Bool

/-- Erase the first element satisfying `p`, returning it and the rest. -/
def findRemove {γ : Type} (p : γ → Bool) : List γ → Option (γ × List γ)
  | [] => none
  | x :: xs =>
    if p x then some (x, xs)
    else (findRemove p xs).map (fun r => (r.1, x :: r.2))

/-- Innermost candidate loop: move the closest candidate found in the
current (shell, octant) cell from the pool to the neighbor catalog. -/
def scanCell {γ : Type} (found : γ → ℕ → ℕ → Bool) (e q : ℕ)
    (st : SweepState γ) : SweepState γ :=
  match findRemove (fun c => found c e q) st.selected with
  | none => st
  | some (c, rest) =>
    { st with
        selected := rest
        numNeighbors := st.numNeighbors + 1
        neighbors := st.neighbors ++ [c] }

/-- `for (int quadrant : quadrants)` with the quota check and its `break`. -/
def runQuadrants {γ : Type} (found : γ → ℕ → ℕ → Bool) (maxNumNeigh : ℤ)
    (e : ℕ) : List ℕ → SweepState γ → SweepState γ
  | [], st => st
  | q :: qs, st =>
    if st.selected.isEmpty ∨ (maxNumNeigh > 0 ∧ st.numNeighbors ≥ maxNumNeigh)
    then { st with workToDo := false }
    else runQuadrants found maxNumNeigh e qs (scanCell found e q st)

/-- `for (elpsNum = size-1; elpsNum >= 0; elpsNum--)`: `shells` is the list
`[size-1, ..., 0]`. -/
def runShells {γ : Type} (found : γ → ℕ → ℕ → Bool) (maxNumNeigh : ℤ)
    (shells : List ℕ) (st : SweepState γ) : SweepState γ :=
  shells.foldl
    (fun st e => runQuadrants found maxNumNeigh e [1, 2, 3, 4, 5, 6, 7, 8] st)
    st

/-- `while (workToDo) { ... }`, fuel-bounded. -/
def runSweep {γ : Type} (found : γ → ℕ → ℕ → Bool) (maxNumNeigh : ℤ)
    (shells : List ℕ) : ℕ → SweepState γ → SweepState γ
  | 0, st => st
  | fuel + 1, st =>
    if st.workToDo then
      runSweep found maxNumNeigh shells fuel (runShells found maxNumNeigh shells st)
    else st

/-- The sweep invariant: the neighbor count never exceeds the quota, and it
counts exactly the events moved to the neighbor catalog. -/
def SweepInv {γ : Type} (maxNumNeigh : ℤ) (st : SweepState γ) : Prop :=
  st.numNeighbors ≤ maxNumNeigh ∧ (st.neighbors.length : ℤ) = st.numNeighbors

theorem runQuadrants_inv {γ : Type} (found : γ → ℕ → ℕ → Bool)
    (maxNumNeigh : ℤ) (hpos : 0 < maxNumNeigh) (e : ℕ) (qs : List ℕ)
    (st : SweepState γ) (h : SweepInv maxNumNeigh st) :
    SweepInv maxNumNeigh (runQuadrants found maxNumNeigh e qs st) := by
  induction qs generalizing st with
  | nil => exact h
  | cons q qs ih =>
    rw [runQuadrants]
    split
    · exact h
    · rename_i hguard
      apply ih
      push_neg at hguard
      have hlt : st.numNeighbors < maxNumNeigh := hguard.2 hpos
      unfold scanCell
      rcases findRemove (fun c => found c e q) st.selected with _ | ⟨c, rest⟩
      · exact h
      · have h2 := h.2
        refine ⟨by dsimp; omega, by simp only [List.length_append,
          List.length_cons, List.length_nil]; push_cast; omega⟩

theorem runShells_inv {γ : Type} (found : γ → ℕ → ℕ → Bool)
    (maxNumNeigh : ℤ) (hpos : 0 < maxNumNeigh) (shells : List ℕ)
    (st : SweepState γ) (h : SweepInv maxNumNeigh st) :
    SweepInv maxNumNeigh (runShells found maxNumNeigh shells st) := by
  unfold runShells
  induction shells generalizing st with
  | nil => exact h
  | cons e shells ih =>
    exact ih _ (runQuadrants_inv found maxNumNeigh hpos e _ st h)

theorem runSweep_inv {γ : Type} (found : γ → ℕ → ℕ → Bool)
    (maxNumNeigh : ℤ) (hpos : 0 < maxNumNeigh) (shells : List ℕ) (fuel : ℕ)
    (st : SweepState γ) (h : SweepInv maxNumNeigh st) :
    SweepInv maxNumNeigh (runSweep found maxNumNeigh shells fuel st) := by
  induction fuel generalizing st with
  | zero => exact h
  | succ fuel ih =>
    rw [runSweep]
    split
    · exact ih _ (runShells_inv found maxNumNeigh hpos shells st h)
    · exact h

/-- C5: with a positive quota `maxNumNeigh`, the shell-by-octant sweep of
`selectNeighbouringEvents` never selects more than `maxNumNeigh` neighbors,
for every candidate pool, geometric test, shell structure and number of
`while` iterations: the quota check at the top of every octant iteration
precedes any insertion and the count never decreases, so once the quota is
reached no further insertion happens anywhere in the three nested loops. -/
theorem selectNeighbouringEvents_quota {γ : Type}
    (found : γ → ℕ → ℕ → Bool) (maxNumNeigh : ℤ) (hpos : 0 < maxNumNeigh)
    (shells : List ℕ) (fuel : ℕ) (cands : List γ) :
    ((runSweep found maxNumNeigh shells fuel
        ⟨cands, 0, [], true⟩).neighbors.length : ℤ) ≤ maxNumNeigh ∧
    (runSweep found maxNumNeigh shells fuel
        ⟨cands, 0, [], true⟩).numNeighbors ≤ maxNumNeigh := by
  obtain ⟨h1, h2⟩ := runSweep_inv found maxNumNeigh hpos shells fuel
    ⟨cands, 0, [], true⟩ ⟨by simpa using hpos.le, by simp⟩
  exact ⟨by omega, h1⟩

/-- Witness for `selectNeighbouringEvents_quota`: a geometric test that puts
every candidate in every cell, three candidates, quota 2, one shell, fuel 4:
the sweep stops at 2 neighbors. -/
theorem selectNeighbouringEvents_quota_witness :
    (0 : ℤ) < 2 ∧
    (((runSweep (fun (_ : ℕ) _ _ => true) 2 [0] 4
        ⟨[10, 20, 30], 0, [], true⟩).neighbors.length : ℤ) ≤ 2 ∧
      (runSweep (fun (_ : ℕ) _ _ => true) 2 [0] 4
        ⟨[10, 20, 30], 0, [], true⟩).numNeighbors ≤ 2) :=
  ⟨by norm_num,
    selectNeighbouringEvents_quota (fun (_ : ℕ) _ _ => true) 2 (by norm_num)
      [0] 4 [10, 20, 30]⟩

/-! ## HypoDD::selectNeighbouringEventsCatalog - pair deduplication
(hypodd.cpp lines 1762-1787)

```cpp
std::multimap<unsigned,unsigned> existingPairs;
for (auto kv : neighboursByEvent )
{
    unsigned currEventId = kv.first;
    CatalogPtr& currCat  = kv.second;
    auto eqlrng = existingPairs.equal_range(currEventId);
    for (auto existingPair = eqlrng.first; existingPair != eqlrng.second; existingPair++)
        currCat->removeEvent(existingPair->second);
    for ( auto const& kv : currCat->getEvents() )
        if ( kv.first != currEventId )
            existingPairs.emplace(kv.first, currEventId);
}
```
`neighboursByEvent` is a `std::map` keyed by event id, so the outer loop
visits the per-event neighbor catalogs in strictly increasing id order; the
model takes the corresponding association list (each neighbor catalog
reduced to the list of event ids it contains, which includes the current
event itself, line 1757) together with the accumulated `existingPairs`. -/

def dedupPairs : List (ℕ × List ℕ) → List (ℕ × ℕ) → List (ℕ × List ℕ)
  | [], _ => []
  | (id, evs) :: rest, existing =>
    let evs' := evs.filter (fun e => (id, e) ∉ existing)
    let newPairs := (evs'.filter (fun e => e ≠ id)).map (fun e => (e, id))
    (id, evs') :: dedupPairs rest (existing ++ newPairs)

/-- First-match association-list lookup (`std::map::find` on the result). -/
def lookupCat (a : ℕ) : List (ℕ × List ℕ) → Option (List ℕ)
  | [] => none
  | (k, v) :: rest => if k = a then some v else lookupCat a rest

/-- Once `(B, A)` is in `existingPairs`, the later processing of `B`'s
catalog removes `A` from it. -/
theorem dedupPairs_removes (B A : ℕ) :
    ∀ (l : List (ℕ × List ℕ)) (existing : List (ℕ × ℕ)) (evsB : List ℕ),
      (B, evsB) ∈ l → (B, A) ∈ existing →
      ∃ eB, lookupCat B (dedupPairs l existing) = some eB ∧ A ∉ eB := by
  intro l
  induction l with
  | nil => intro existing evsB hmem; simp at hmem
  | cons hd rest ih =>
    intro existing evsB hmem hBA
    obtain ⟨id, evs⟩ := hd
    rw [dedupPairs]
    by_cases hid : id = B
    · subst hid
      refine ⟨evs.filter (fun e => (id, e) ∉ existing), ?_, ?_⟩
      · rw [lookupCat, if_pos rfl]
      · intro hA
        have := (List.mem_filter.mp hA).2
        simp only [decide_not, Bool.not_eq_true', decide_eq_false_iff_not] at this
        exact this hBA
    · have hmem' : (B, evsB) ∈ rest := by
        rcases List.mem_cons.mp hmem with h | h
        · exact absurd (congrArg Prod.fst h).symm hid
        · exact h
      obtain ⟨eB, heB, hAeB⟩ := ih (existing ++ _) evsB
        hmem' (List.mem_append_left _ hBA)
      exact ⟨eB, by rw [lookupCat, if_neg hid]; exact heB, hAeB⟩

/-- C6: in catalog mode, for every unordered pair of events `{A, B}`
(`A < B`, so `A` is processed first) such that each appears in the other's
selected neighborhood, the deduplication pass leaves the pair in exactly one
of the two per-event neighbor catalogs: `B` stays in `A`'s catalog and `A`
is removed from `B`'s, so each unordered pair contributes to the DD files
exactly once.  `hsort` is the `std::map` iteration order (strictly
increasing ids); `hinv` is the invariant satisfied by the initial (empty)
`existingPairs` multimap: the second component of every recorded pair is an
already-processed id. -/
theorem selectNeighbouringEventsCatalog_pair_unique (A B : ℕ) (hAB : A < B) :
    ∀ (l : List (ℕ × List ℕ)) (existing : List (ℕ × ℕ))
      (evsA evsB : List ℕ),
      (l.map Prod.fst).Pairwise (· < ·) →
      (∀ p ∈ existing, p.2 ∉ l.map Prod.fst) →
      (A, evsA) ∈ l → (B, evsB) ∈ l → B ∈ evsA → A ∈ evsB →
      ∃ eA eB, lookupCat A (dedupPairs l existing) = some eA ∧
        lookupCat B (dedupPairs l existing) = some eB ∧ B ∈ eA ∧ A ∉ eB := by
  intro l
  induction l with
  | nil => intro existing evsA evsB _ _ hmemA; simp at hmemA
  | cons hd rest ih =>
    intro existing evsA evsB hsort hinv hmemA hmemB hBinA hAinB
    obtain ⟨id, evs⟩ := hd
    have hsort' : (id :: rest.map Prod.fst).Pairwise (· < ·) := by
      simpa using hsort
    obtain ⟨hlt, htail⟩ := List.pairwise_cons.mp hsort'
    have hkeyA : ∀ x : List ℕ, (A, x) ∈ rest → id < A := fun x hx =>
      hlt A (by simpa using List.mem_map_of_mem Prod.fst hx)
    have hkeyB : ∀ x : List ℕ, (B, x) ∈ rest → id < B := fun x hx =>
      hlt B (by simpa using List.mem_map_of_mem Prod.fst hx)
    have hidB : id ≠ B := by
      intro h
      subst h
      rcases List.mem_cons.mp hmemA with h | h
      · have : A = id := congrArg Prod.fst h
        omega
      · exact absurd (hkeyA evsA h) (by omega)
    have hmemB' : (B, evsB) ∈ rest := by
      rcases List.mem_cons.mp hmemB with h | h
      · exact absurd (congrArg Prod.fst h).symm hidB
      · exact h
    rw [dedupPairs]
    by_cases hidA : id = A
    · subst hidA
      -- head is A's catalog; B survives the removal filter since the
      -- invariant rules (id, B) out of existingPairs (B is a later key)
      have hevs : evs = evsA := by
        rcases List.mem_cons.mp hmemA with h | h
        · have h2 := congrArg Prod.snd h
          exact h2.symm
        · exact absurd (hkeyA evsA h) (lt_irrefl id)
      subst hevs
      have hABnotin : (id, B) ∉ existing := by
        intro h
        have hBk : B ∈ ((id, evs) :: rest).map Prod.fst := by
          simpa using Or.inr (List.mem_map_of_mem Prod.fst hmemB')
        exact hinv (id, B) h hBk
      have hBfil : B ∈ evs.filter (fun e => (id, e) ∉ existing) :=
        List.mem_filter.mpr ⟨hBinA, by simpa using hABnotin⟩
      have hnewBA : (B, id) ∈ existing ++
          ((evs.filter (fun e => (id, e) ∉ existing)).filter
            (fun e => e ≠ id)).map (fun e => (e, id)) := by
        apply List.mem_append_right
        apply List.mem_map_of_mem
        apply List.mem_filter.mpr
        refine ⟨hBfil, by simpa using hidB.symm⟩
      obtain ⟨eB, heB, hAeB⟩ := dedupPairs_removes B id rest _ evsB
        hmemB' hnewBA
      refine ⟨evs.filter (fun e => (id, e) ∉ existing), eB, ?_, ?_, hBfil, hAeB⟩
      · rw [lookupCat, if_pos rfl]
      · rw [lookupCat, if_neg hidB]
        exact heB
    · -- head is neither A nor B: recurse
      have hmemA' : (A, evsA) ∈ rest := by
        rcases List.mem_cons.mp hmemA with h | h
        · exact absurd (congrArg Prod.fst h).symm hidA
        · exact h
      obtain ⟨eA, eB, heA, heB, h1, h2⟩ := ih
        (existing ++ ((evs.filter (fun e => (id, e) ∉ existing)).filter
          (fun e => e ≠ id)).map (fun e => (e, id))) evsA evsB htail
        (by
          intro p hp hk
          have hk' : p.2 ∈ ((id, evs) :: rest).map Prod.fst := by
            simpa using Or.inr hk
          rcases List.mem_append.mp hp with h | h
          · exact hinv p h hk'
          · obtain ⟨e, he, hpe⟩ := List.mem_map.mp h
            have hp2 : p.2 = id := by rw [← hpe]
            rw [hp2] at hk
            obtain ⟨y, hy⟩ := by simpa using hk
            exact absurd (hlt id (by simpa using List.mem_map_of_mem Prod.fst hy))
              (lt_irrefl id))
        hmemA' hmemB' hBinA hAinB
      exact ⟨eA, eB, by rw [lookupCat, if_neg hidA]; exact heA,
        by rw [lookupCat, if_neg hidB]; exact heB, h1, h2⟩

/-- Witness for `selectNeighbouringEventsCatalog_pair_unique`: events 1 and
2 each have the other as neighbor; after deduplication the pair {1,2} is in
event 1's catalog only. -/
theorem selectNeighbouringEventsCatalog_pair_unique_witness :
    ∃ eA eB, lookupCat 1 (dedupPairs [(1, [1, 2]), (2, [1, 2])] []) = some eA ∧
      lookupCat 2 (dedupPairs [(1, [1, 2]), (2, [1, 2])] []) = some eB ∧
      2 ∈ eA ∧ 1 ∉ eB :=
  selectNeighbouringEventsCatalog_pair_unique 1 2 (by norm_num)
    [(1, [1, 2]), (2, [1, 2])] [] [1, 2] [1, 2] (by simp)
    (by simp) (by simp) (by simp) (by simp) (by simp)

/-! ## HypoDD::getWaveform (hypodd.cpp lines 2692-2830)

```cpp
GenericRecordPtr HypoDD::getWaveform(tw, ev, ph, memCache, useDiskCache, checkSnr)
{
    const string wfId = waveformId(ph, tw);
    const auto it = memCache.find(wfId);
    if ( it != memCache.end() ) return it->second;     // 1. memory-cache hit
    if ( _excludedWfs.count(wfId) != 0 ) return nullptr; // 2. sticky exclusion
    ... load / project / filter / SNR-check / trim ...
    // every failure path does: _excludedWfs.insert(wfId); return nullptr;
    memCache[wfId] = trace;                            // success: cache
    return trace;
}
```
State machine model.  `memCache` is a **parameter**: the process holds
several cache maps (`_wfCache` for the catalog, `_tmpCache` for artificial
phases), identified here by a cache id `cid`; `_excludedWfs` is a single
process-wide set.  A call is `(cid, fingerprint, ok)` where the oracle `ok`
says whether the entire load pipeline (inventory, components, record
stream, SNR, trim) would succeed at this moment; every failure mode
inserts into the exclusion set and returns null, which is all the claim
observes.  Loaded traces are fresh objects (`new GenericRecord`), modelled
by the allocation counter `nextId`: distinct loads give distinct objects. -/

structure WfState where
  excluded : List String
  caches : ℕ → List (String × ℕ)
  nextId : ℕ

def cacheLookup (cache : List (String × ℕ)) (f : String) : Option ℕ :=
  match cache with
  | [] => none
  | (k, v) :: rest => if k = f then some v else cacheLookup rest f

def getWaveformStep (st : WfState) (cid : ℕ) (f : String) (ok : Bool) :
    WfState × Option ℕ :=
  match cacheLookup (st.caches cid) f with
  | some t => (st, some t)
  | none =>
    if f ∈ st.excluded then (st, none)
    else if ok then
      ({ st with
          caches := fun c =>
            if c = cid then (f, st.nextId) :: st.caches cid else st.caches c
          nextId := st.nextId + 1 }, some st.nextId)
    else
      ({ st with excluded := f :: st.excluded }, none)

def getWaveformRun (st : WfState) : List (ℕ × String × Bool) → WfState
  | [] => st
  | (cid, f, ok) :: calls => getWaveformRun (getWaveformStep st cid f ok).1 calls

/-- A cached entry survives any later call. -/
theorem getWaveformStep_cache_mono (st : WfState) (c cid : ℕ) (g f : String)
    (ok : Bool) (t : ℕ) (h : cacheLookup (st.caches c) f = some t) :
    cacheLookup ((getWaveformStep st cid g ok).1.caches c) f = some t := by
  unfold getWaveformStep
  cases hg : cacheLookup (st.caches cid) g with
  | some t' => exact h
  | none =>
    by_cases hex : g ∈ st.excluded
    · rw [if_pos hex]; exact h
    · rw [if_neg hex]
      cases ok with
      | false => rw [if_neg (by simp)]; exact h
      | true =>
        rw [if_pos rfl]
        dsimp only
        by_cases hc : c = cid
        · subst hc
          have hgf : g ≠ f := by
            intro hh
            subst hh
            rw [h] at hg
            exact Option.noConfusion hg
          rw [if_pos rfl, cacheLookup, if_neg hgf]
          exact h
        · rw [if_neg hc]
          exact h

/-- An excluded fingerprint stays excluded after any later call. -/
theorem getWaveformStep_excluded_mono (st : WfState) (cid : ℕ) (g f : String)
    (ok : Bool) (h : f ∈ st.excluded) :
    f ∈ (getWaveformStep st cid g ok).1.excluded := by
  unfold getWaveformStep
  cases hg : cacheLookup (st.caches cid) g with
  | some t' => exact h
  | none =>
    by_cases hex : g ∈ st.excluded
    · rw [if_pos hex]; exact h
    · rw [if_neg hex]
      cases ok with
      | false => rw [if_neg (by simp)]; exact List.mem_cons_of_mem _ h
      | true => rw [if_pos rfl]; exact h

/-- An excluded fingerprint that is absent from a cache map stays absent
from it: the only caching path requires the fingerprint not to be
excluded. -/
theorem getWaveformStep_excluded_uncached (st : WfState) (c cid : ℕ)
    (g f : String) (ok : Bool) (hex : f ∈ st.excluded)
    (h : cacheLookup (st.caches c) f = none) :
    cacheLookup ((getWaveformStep st cid g ok).1.caches c) f = none := by
  unfold getWaveformStep
  cases hg : cacheLookup (st.caches cid) g with
  | some t' => exact h
  | none =>
    by_cases hgex : g ∈ st.excluded
    · rw [if_pos hgex]; exact h
    · rw [if_neg hgex]
      cases ok with
      | false => rw [if_neg (by simp)]; exact h
      | true =>
        rw [if_pos rfl]
        dsimp only
        by_cases hc : c = cid
        · subst hc
          have hgf : g ≠ f := fun hh => hgex (hh ▸ hex)
          rw [if_pos rfl, cacheLookup, if_neg hgf]
          exact h
        · rw [if_neg hc]
          exact h

theorem getWaveformRun_cache_mono (c : ℕ) (f : String) (t : ℕ) :
    ∀ (mid : List (ℕ × String × Bool)) (st : WfState),
      cacheLookup (st.caches c) f = some t →
      cacheLookup ((getWaveformRun st mid).caches c) f = some t := by
  intro mid
  induction mid with
  | nil => intro st h; exact h
  | cons call calls ih =>
    intro st h
    obtain ⟨cid, g, ok⟩ := call
    exact ih _ (getWaveformStep_cache_mono st c cid g f ok t h)

theorem getWaveformRun_excluded_mono (f : String) :
    ∀ (mid : List (ℕ × String × Bool)) (st : WfState), f ∈ st.excluded →
      f ∈ (getWaveformRun st mid).excluded := by
  intro mid
  induction mid with
  | nil => intro st h; exact h
  | cons call calls ih =>
    intro st h
    obtain ⟨cid, g, ok⟩ := call
    exact ih _ (getWaveformStep_excluded_mono st cid g f ok h)

theorem getWaveformRun_excluded_uncached (c : ℕ) (f : String) :
    ∀ (mid : List (ℕ × String × Bool)) (st : WfState), f ∈ st.excluded →
      cacheLookup (st.caches c) f = none →
      cacheLookup ((getWaveformRun st mid).caches c) f = none := by
  intro mid
  induction mid with
  | nil => intro st _ h; exact h
  | cons call calls ih =>
    intro st hex h
    obtain ⟨cid, g, ok⟩ := call
    exact ih _ (getWaveformStep_excluded_mono st cid g f ok hex)
      (getWaveformStep_excluded_uncached st c cid g f ok hex h)

/-- A successful call leaves the trace in its cache map. -/
theorem getWaveformStep_success_cached (st : WfState) (cid : ℕ) (f : String)
    (ok : Bool) (t : ℕ) (h : (getWaveformStep st cid f ok).2 = some t) :
    cacheLookup ((getWaveformStep st cid f ok).1.caches cid) f = some t := by
  unfold getWaveformStep at h ⊢
  cases hg : cacheLookup (st.caches cid) f with
  | some t' =>
    rw [hg] at h
    simpa using hg.trans h
  | none =>
    rw [hg] at h
    by_cases hex : f ∈ st.excluded
    · rw [if_pos hex] at h
      exact Option.noConfusion h
    · rw [if_neg hex] at h ⊢
      cases ok with
      | false =>
        rw [if_neg (by simp)] at h
        exact Option.noConfusion h
      | true =>
        rw [if_pos rfl] at h ⊢
        dsimp only at h ⊢
        rw [if_pos rfl, cacheLookup, if_pos rfl]
        exact congrArg some (by simpa using h)

/-- A cache hit returns the cached trace. -/
theorem getWaveformStep_hit (st : WfState) (cid : ℕ) (f : String) (ok : Bool)
    (t : ℕ) (h : cacheLookup (st.caches cid) f = some t) :
    (getWaveformStep st cid f ok).2 = some t := by
  unfold getWaveformStep
  rw [h]

/-- A call whose cache map misses an excluded fingerprint returns null. -/
theorem getWaveformStep_excluded_null (st : WfState) (cid : ℕ) (f : String)
    (ok : Bool) (hex : f ∈ st.excluded)
    (h : cacheLookup (st.caches cid) f = none) :
    (getWaveformStep st cid f ok).2 = none := by
  unfold getWaveformStep
  cases hg : cacheLookup (st.caches cid) f with
  | some t' => rw [hg] at h; exact Option.noConfusion h
  | none => rw [if_pos hex]

/-- C7 (amended): per cache map, `getWaveform` is idempotent: a call that
returned trace `t` for fingerprint `f` through cache map `cid` is followed,
after arbitrarily many other calls, by the same trace `t` for every later
call with the same fingerprint and the same cache map.  And exclusion is
sticky relative to the cache maps: once `f` is in the exclusion set, every
later call through a cache map that did not already hold `f` when `f` was
excluded returns null, for the rest of the process.  (As stated in the
claim - same object for ANY two calls with the same fingerprint, null for
EVERY later call after exclusion - the property fails across distinct cache
maps; see the counterexample.) -/
theorem getWaveform_cache_coherence (f : String)
    (mid : List (ℕ × String × Bool)) :
    (∀ (st0 : WfState) (cid : ℕ) (ok ok2 : Bool) (t : ℕ),
      (getWaveformStep st0 cid f ok).2 = some t →
      (getWaveformStep (getWaveformRun (getWaveformStep st0 cid f ok).1 mid)
        cid f ok2).2 = some t) ∧
    (∀ (st0 : WfState) (cid2 : ℕ) (ok2 : Bool), f ∈ st0.excluded →
      cacheLookup (st0.caches cid2) f = none →
      (getWaveformStep (getWaveformRun st0 mid) cid2 f ok2).2 = none) := by
  constructor
  · intro st0 cid ok ok2 t h
    have h1 := getWaveformStep_success_cached st0 cid f ok t h
    have h2 := getWaveformRun_cache_mono cid f t mid _ h1
    exact getWaveformStep_hit _ cid f ok2 t h2
  · intro st0 cid2 ok2 hex hnone
    exact getWaveformStep_excluded_null _ cid2 f ok2
      (getWaveformRun_excluded_mono f mid st0 hex)
      (getWaveformRun_excluded_uncached cid2 f mid st0 hex hnone)

/-- C7 counterexample: the process holds several cache maps (`_wfCache`,
`_tmpCache`), and `getWaveform` receives the cache as a parameter; the
exclusion check runs only after the cache lookup.  Starting from a fresh
process state: a call for fingerprint "f" through cache 0 loads trace 0; a
second call for the SAME fingerprint through cache 1 misses that cache and
loads a fresh trace 1 ≠ trace 0 (refuting "two calls with the same
fingerprint return the same cached trace object"); a failing call through
cache 2 then puts "f" in the exclusion set, after which a call through
cache 0 still returns trace 0, not null (refuting "once a fingerprint has
been added to the exclusion set, every later call with that fingerprint
returns null"). -/
theorem getWaveform_cache_claim_false :
    (getWaveformStep ⟨[], fun _ => [], 0⟩ 0 "f" true).2 = some 0 ∧
    (getWaveformStep (getWaveformStep ⟨[], fun _ => [], 0⟩ 0 "f" true).1
      1 "f" true).2 = some 1 ∧
    some 0 ≠ some 1 ∧
    "f" ∈ ((getWaveformStep ((getWaveformStep
        (getWaveformStep ⟨[], fun _ => [], 0⟩ 0 "f" true).1
        1 "f" true).1) 2 "f" false).1).excluded ∧
    (getWaveformStep ((getWaveformStep ((getWaveformStep
        (getWaveformStep ⟨[], fun _ => [], 0⟩ 0 "f" true).1
        1 "f" true).1) 2 "f" false).1) 0 "f" true).2 = some 0 := by
  refine ⟨rfl, rfl, by simp, ?_, rfl⟩
  simp [getWaveformStep, cacheLookup]

/-- Witness for `getWaveform_cache_coherence`: fingerprint "f", no
intervening calls, a successful first call through cache 0 (first
conjunct), and an initial state with "f" already excluded and cache 1
empty (second conjunct). -/
theorem getWaveform_cache_coherence_witness :
    (getWaveformStep (getWaveformRun
        (getWaveformStep ⟨["g"], fun _ => [], 0⟩ 0 "f" true).1 [])
      0 "f" false).2 = some 0 ∧
    (getWaveformStep (getWaveformRun ⟨["f"], fun _ => [], 0⟩ [])
      1 "f" true).2 = none :=
  ⟨(getWaveform_cache_coherence "f" []).1 ⟨["g"], fun _ => [], 0⟩ 0 true false 0
      (by simp [getWaveformStep, cacheLookup]),
    (getWaveform_cache_coherence "f" []).2 ⟨["f"], fun _ => [], 0⟩ 1 true
      (by simp) rfl⟩

/-! ## HypoDD::xcorr, trace version (hypodd.cpp lines 2520-2615)

```cpp
delayOut = 0.; coeffOut = std::nan("");
...
const bool swap = tr1->data()->size() > tr2->data()->size();
trShorter = swap ? tr2 : tr1;  trLonger = swap ? tr1 : tr2;
vector<double> localMaxs;  bool notDecreasing = false;  double prevCoeff = -1;
for (int delay = -maxDelaySmps; delay < maxDelaySmps; delay++)
{
    double numer = 0, denomL = 0, denomS = 0;
    for (int idxS = 0; idxS < smpsSsize; idxS++)
    {
        int idxL = idxS + (smpsLsize-smpsSsize)/2 + delay;
        if (idxL < 0 || idxL >= smpsLsize) continue;
        numer  += smpsS[idxS] * smpsL[idxL];
        denomL += smpsL[idxL] * smpsL[idxL];
        denomS += smpsS[idxS] * smpsS[idxS];
    }
    const double coeff = numer / std::sqrt(denomS * denomL);
    if ( coeff > coeffOut || !std::isfinite(coeffOut) )
    { coeffOut = coeff; delayOut = delay / freq; }
    if (coeff < prevCoeff && notDecreasing ) localMaxs.push_back(prevCoeff);
    notDecreasing = coeff >= prevCoeff;
    prevCoeff = coeff;
}
if ( swap ) delayOut = -delayOut;
if ( qualityCheck && std::isfinite(coeffOut) )
{
    double threshold = coeffOut - ( (1.0 - coeffOut) / 2.0 );
    int numMax = 0;
    for (double CCslm : localMaxs)
    {
        if (std::isfinite(CCslm) && CCslm >= threshold) numMax++;
        if (numMax > 1) { coeffOut = std::nan(""); break; }
    }
}
```
The loop state and the per-delay update are generic in the (exact) scalar
field: the series-level logic (maximum tracking, local-maximum recording,
cycle-skipping quality check) is instantiated at `ℚ`, and the full trace
computation - where `std::sqrt` appears - at `ℝ`.  `coeffOut` starts as
`std::nan`, modelled `Option` (`none` = NaN); all computed series values
are modelled as ordinary field elements (see `coeffAt` for the one place
where C++ could produce non-finite values, only when a window has zero
energy).  `delayOut` is kept in samples during the loop and converted to
seconds (`delay / freq`) at the end, which commutes with everything. -/

structure XcState (α : Type) where
  coeffOut : Option α
  delayOut : ℤ
  localMaxs : List α
  notDecreasing : Bool
  prevCoeff : α

def xcInit {α : Type} [LinearOrderedField α] : XcState α :=
  ⟨none, 0, [], false, -1⟩

/-- `if ( coeff > coeffOut || !std::isfinite(coeffOut) ) { coeffOut = coeff;
delayOut = delay; }` - `coeffOut` is non-finite exactly when still `none`. -/
def xcMaxUpdate {α : Type} [LinearOrderedField α] (st : XcState α)
    (delay : ℤ) (coeff : α) : XcState α :=
  match st.coeffOut with
  | none => { st with coeffOut := some coeff, delayOut := delay }
  | some m =>
    if coeff > m then { st with coeffOut := some coeff, delayOut := delay }
    else st

/-- One iteration of the delay loop at coefficient value `coeff`. -/
def xcStep {α : Type} [LinearOrderedField α] (st : XcState α) (delay : ℤ)
    (coeff : α) : XcState α :=
  let st1 := xcMaxUpdate st delay coeff
  let st2 :=
    if coeff < st.prevCoeff ∧ st.notDecreasing = true
    then { st1 with localMaxs := st1.localMaxs ++ [st.prevCoeff] }
    else st1
  { st2 with
      notDecreasing := if coeff ≥ st.prevCoeff then true else false
      prevCoeff := coeff }

/-- `[a, a+1, ..., a+n-1]`. -/
def consecList (a : ℤ) (n : ℕ) : List ℤ :=
  (List.range n).map (fun (i : ℕ) => a + (i : ℤ))

/-- The delays visited by `for (delay = -maxDelaySmps; delay < maxDelaySmps;
delay++)`: the half-open range `[-K, K)`. -/
def delayList (K : ℤ) : List ℤ := consecList (-K) (2 * K).toNat

def xcLoop {α : Type} [LinearOrderedField α] (c : ℤ → α) (K : ℤ) :
    XcState α :=
  (delayList K).foldl (fun st d => xcStep st d (c d)) xcInit

/-- `threshold = coeffOut - ( (1.0 - coeffOut) / 2.0 )`. -/
def xcThreshold {α : Type} [LinearOrderedField α] (m : α) : α :=
  m - (1 - m) / 2

/-- The quality-check loop over the recorded local maxima: count the ones
at or above the threshold, reject as soon as the count exceeds one. -/
def xcQualityReject {α : Type} [LinearOrderedField α] (t : α) :
    ℕ → List α → Bool
  | _, [] => false
  | n, x :: xs =>
    let n' := if x ≥ t then n + 1 else n
    if n' > 1 then true else xcQualityReject t n' xs

/-- The post-loop quality check (`qualityCheck && isfinite(coeffOut)`). -/
def xcFinal {α : Type} [LinearOrderedField α] (qualityCheck : Bool)
    (st : XcState α) : XcState α :=
  match st.coeffOut with
  | none => st
  | some m =>
    if qualityCheck = true ∧
        xcQualityReject (xcThreshold m) 0 st.localMaxs = true
    then { st with coeffOut := none }
    else st

/-- The values recorded as local maxima while walking the series `c` over a
given delay list, starting from a given virtual previous value (`-1` in the
code) and `notDecreasing` flag. -/
def walkRecords {α : Type} [LinearOrderedField α] (c : ℤ → α) (prev : α)
    (nd : Bool) : List ℤ → List α
  | [] => []
  | d :: ds =>
    (if c d < prev ∧ nd = true then [prev] else []) ++
      walkRecords c (c d) (if c d ≥ prev then true else false) ds

theorem xcStep_prevCoeff {α : Type} [LinearOrderedField α] (st : XcState α)
    (d : ℤ) (x : α) : (xcStep st d x).prevCoeff = x := rfl

theorem xcStep_notDecreasing {α : Type} [LinearOrderedField α]
    (st : XcState α) (d : ℤ) (x : α) :
    (xcStep st d x).notDecreasing = if x ≥ st.prevCoeff then true else false :=
  rfl

theorem xcStep_localMaxs {α : Type} [LinearOrderedField α] (st : XcState α)
    (d : ℤ) (x : α) :
    (xcStep st d x).localMaxs = st.localMaxs ++
      (if x < st.prevCoeff ∧ st.notDecreasing = true
       then [st.prevCoeff] else []) := by
  unfold xcStep xcMaxUpdate
  cases st.coeffOut with
  | none => dsimp only; split <;> simp
  | some m => dsimp only; split <;> split <;> simp

theorem xcStep_coeffOut_none {α : Type} [LinearOrderedField α]
    (st : XcState α) (d : ℤ) (x : α) (h : st.coeffOut = none) :
    (xcStep st d x).coeffOut = some x ∧ (xcStep st d x).delayOut = d := by
  unfold xcStep xcMaxUpdate
  rw [h]
  dsimp only
  split <;> exact ⟨rfl, rfl⟩

theorem xcStep_coeffOut_some {α : Type} [LinearOrderedField α]
    (st : XcState α) (d : ℤ) (x : α) (m : α) (h : st.coeffOut = some m) :
    (x > m → (xcStep st d x).coeffOut = some x ∧
      (xcStep st d x).delayOut = d) ∧
    (¬ x > m → (xcStep st d x).coeffOut = some m ∧
      (xcStep st d x).delayOut = st.delayOut) := by
  unfold xcStep xcMaxUpdate
  rw [h]
  dsimp only
  constructor
  · intro hx
    rw [if_pos hx]
    split <;> exact ⟨rfl, rfl⟩
  · intro hx
    rw [if_neg hx]
    split <;> exact ⟨h, rfl⟩

/-- The local maxima recorded by the delay loop, as a walk of the series. -/
theorem xcFold_localMaxs {α : Type} [LinearOrderedField α] (c : ℤ → α) :
    ∀ (ds : List ℤ) (st : XcState α),
      (ds.foldl (fun st d => xcStep st d (c d)) st).localMaxs =
        st.localMaxs ++ walkRecords c st.prevCoeff st.notDecreasing ds := by
  intro ds
  induction ds with
  | nil => intro st; simp [walkRecords]
  | cons d ds ih =>
    intro st
    rw [List.foldl_cons, ih, walkRecords, xcStep_localMaxs,
      xcStep_prevCoeff, xcStep_notDecreasing, List.append_assoc]

/-- Maximum tracking through the fold, starting from a state that already
holds a maximum. -/
theorem xcFold_max {α : Type} [LinearOrderedField α] (c : ℤ → α) :
    ∀ (ds : List ℤ) (st : XcState α) (m : α),
      st.coeffOut = some m → c st.delayOut = m →
      ∃ m', (ds.foldl (fun st d => xcStep st d (c d)) st).coeffOut = some m' ∧
        c (ds.foldl (fun st d => xcStep st d (c d)) st).delayOut = m' ∧
        m ≤ m' ∧
        ((ds.foldl (fun st d => xcStep st d (c d)) st).delayOut =
            st.delayOut ∨
          (ds.foldl (fun st d => xcStep st d (c d)) st).delayOut ∈ ds) ∧
        ∀ d ∈ ds, c d ≤ m' := by
  intro ds
  induction ds with
  | nil =>
    intro st m h1 h2
    exact ⟨m, h1, h2, le_refl m, Or.inl rfl, by simp⟩
  | cons d ds ih =>
    intro st m h1 h2
    simp only [List.foldl_cons]
    obtain ⟨hgt, hle⟩ := xcStep_coeffOut_some st d (c d) m h1
    by_cases hx : c d > m
    · obtain ⟨hc, hd⟩ := hgt hx
      obtain ⟨m', p1, p2, p3, p4, p5⟩ := ih (xcStep st d (c d)) (c d) hc
        (by rw [hd])
      refine ⟨m', p1, p2, le_of_lt (lt_of_lt_of_le hx p3), ?_, ?_⟩
      · rcases p4 with p4 | p4
        · exact Or.inr (by rw [p4, hd]; exact List.mem_cons_self d ds)
        · exact Or.inr (List.mem_cons_of_mem d p4)
      · intro e he
        rcases List.mem_cons.mp he with rfl | he
        · exact p3
        · exact p5 e he
    · obtain ⟨hc, hd⟩ := hle hx
      obtain ⟨m', p1, p2, p3, p4, p5⟩ := ih (xcStep st d (c d)) m hc
        (by rw [hd]; exact h2)
      refine ⟨m', p1, p2, p3, ?_, ?_⟩
      · rcases p4 with p4 | p4
        · exact Or.inl (by rw [p4, hd])
        · exact Or.inr (List.mem_cons_of_mem d p4)
      · intro e he
        rcases List.mem_cons.mp he with he | he
        · subst he; exact le_trans (not_lt.mp hx) p3
        · exact p5 e he

theorem consecList_succ (a : ℤ) (n : ℕ) :
    consecList a (n + 1) = a :: consecList (a + 1) n := by
  unfold consecList
  rw [List.range_succ_eq_map]
  rw [List.map_cons, List.map_map]
  congr 1
  · simp
  · apply List.map_congr_left
    intro i _
    simp only [Function.comp_apply]
    push_cast
    ring

theorem mem_consecList (a : ℤ) (n : ℕ) (d : ℤ) :
    d ∈ consecList a n ↔ a ≤ d ∧ d < a + n := by
  unfold consecList
  simp only [List.mem_map, List.mem_range]
  constructor
  · rintro ⟨i, hi, rfl⟩
    omega
  · rintro ⟨h1, h2⟩
    exact ⟨(d - a).toNat, by omega, by omega⟩

theorem mem_delayList (K d : ℤ) : d ∈ delayList K ↔ -K ≤ d ∧ d < K := by
  unfold delayList
  rw [mem_consecList]
  omega

/-- The maximum and its delay over the whole loop (nonempty delay range). -/
theorem xcLoop_max {α : Type} [LinearOrderedField α] (c : ℤ → α) (K : ℤ)
    (hK : 1 ≤ K) :
    ∃ m, (xcLoop c K).coeffOut = some m ∧
      c (xcLoop c K).delayOut = m ∧ (xcLoop c K).delayOut ∈ delayList K ∧
      ∀ d ∈ delayList K, c d ≤ m := by
  have hlist : delayList K = -K :: consecList (-K + 1) ((2 * K).toNat - 1) := by
    unfold delayList
    have h2K : (2 * K).toNat = ((2 * K).toNat - 1) + 1 := by omega
    rw [h2K, consecList_succ]
    norm_num
  rw [xcLoop, hlist, List.foldl_cons]
  obtain ⟨hc, hd⟩ := xcStep_coeffOut_none (α := α) xcInit (-K) (c (-K)) rfl
  obtain ⟨m', p1, p2, p3, p4, p5⟩ := xcFold_max c _ (xcStep xcInit (-K) (c (-K)))
    (c (-K)) hc (by rw [hd])
  refine ⟨m', p1, p2, ?_, ?_⟩
  · rcases p4 with p4 | p4
    · rw [p4, hd]; exact List.mem_cons_self _ _
    · exact List.mem_cons_of_mem _ p4
  · intro d hdmem
    rcases List.mem_cons.mp hdmem with h | h
    · subst h; exact p3
    · exact p5 d h

theorem delayList_nil (K : ℤ) (h : K ≤ 0) : delayList K = [] := by
  unfold delayList
  have h0 : (2 * K).toNat = 0 := by omega
  rw [h0]
  rfl

/-- Every interior local maximum of the walked series is recorded: if the
series does not decrease into position `d` and strictly decreases right
after it, the value at `d` is pushed onto `localMaxs`.  At the first
position the comparison is against the initial `prevCoeff` seed. -/
theorem mem_walkRecords {α : Type} [LinearOrderedField α] (c : ℤ → α) :
    ∀ (n : ℕ) (a : ℤ) (prev : α) (nd : Bool) (d : ℤ),
      a ≤ d → d + 1 < a + n →
      ((a < d ∧ c (d - 1) ≤ c d) ∨ (d = a ∧ prev ≤ c d)) →
      c (d + 1) < c d →
      c d ∈ walkRecords c prev nd (consecList a n) := by
  intro n
  induction n with
  | zero =>
    intro a prev nd d h1 h2 _ _
    exact absurd h2 (by push_cast; omega)
  | succ m ihm =>
    intro a prev nd d h1 h2 h3 h4
    rw [consecList_succ, walkRecords]
    by_cases hda : d = a
    · subst hda
      have hprev : prev ≤ c d := by
        rcases h3 with ⟨hlt, _⟩ | ⟨_, hp⟩
        · exact absurd hlt (lt_irrefl d)
        · exact hp
      have hm1 : 1 ≤ m := by push_cast at h2; omega
      obtain ⟨m', rfl⟩ : ∃ m'', m = m'' + 1 := ⟨m - 1, by omega⟩
      rw [consecList_succ, walkRecords]
      apply List.mem_append_right
      apply List.mem_append_left
      rw [if_pos ⟨h4, by rw [if_pos hprev]⟩]
      exact List.mem_singleton.mpr rfl
    · have hlt : a < d := lt_of_le_of_ne h1 (Ne.symm hda)
      have hc1 : c (d - 1) ≤ c d := by
        rcases h3 with ⟨_, hc⟩ | ⟨heq, _⟩
        · exact hc
        · exact absurd heq hda
      apply List.mem_append_right
      apply ihm (a + 1) (c a) _ d (by omega) (by push_cast at h2 ⊢; omega) ?_ h4
      by_cases hd1 : d = a + 1
      · exact Or.inr ⟨hd1, by rw [hd1] at hc1 ⊢; simpa using hc1⟩
      · exact Or.inl ⟨by omega, hc1⟩

/-- The quality-check loop rejects exactly when, together with the running
count, at least two local maxima reach the threshold. -/
theorem xcQualityReject_iff {α : Type} [LinearOrderedField α] (t : α) :
    ∀ (xs : List α) (n : ℕ), n ≤ 1 →
      (xcQualityReject t n xs = true ↔
        2 ≤ n + (xs.filter (fun x => t ≤ x)).length) := by
  intro xs
  induction xs with
  | nil =>
    intro n hn
    rw [xcQualityReject]
    simp only [List.filter_nil, List.length_nil]
    constructor
    · intro h; exact absurd h (by simp)
    · intro h; omega
  | cons x xs ih =>
    intro n hn
    rw [xcQualityReject]
    by_cases hx : x ≥ t
    · rw [List.filter_cons_of_pos (by simpa using hx)]
      simp only [if_pos hx, List.length_cons]
      by_cases hn1 : n + 1 > 1
      · rw [if_pos hn1]
        constructor
        · intro _; omega
        · intro _; rfl
      · rw [if_neg hn1, ih (n + 1) (by omega)]
        omega
    · rw [List.filter_cons_of_neg (by simpa using hx)]
      simp only [if_neg hx]
      by_cases hn1 : n > 1
      · rw [if_pos hn1]
        constructor
        · intro _; omega
        · intro _; rfl
      · rw [if_neg hn1, ih n hn]

/-- C1: the cycle-skipping quality check.  For any correlation series
(`c` restricted to the evaluated delay range) whose loop produced the
finite maximum `m` (= Cmax): with threshold T = Cmax - (1 - Cmax)/2, the
measurement is rejected (coefficient set to NaN = `none`) if and only if
two or more of the recorded local maxima are ≥ T, and otherwise the
coefficient is left unchanged at Cmax; every interior local maximum of the
series is recorded while walking it (at the left edge the comparison is
against the initial `prevCoeff = -1` seed); and Cmax is the global maximum
of the series over the evaluated range. -/
theorem xcorr_cycle_skipping_rejection (c : ℤ → ℚ) (K : ℤ) (m : ℚ)
    (hm : (xcLoop c K).coeffOut = some m) :
    (((xcFinal true (xcLoop c K)).coeffOut = none) ↔
      2 ≤ ((xcLoop c K).localMaxs.filter
        (fun x => xcThreshold m ≤ x)).length) ∧
    (((xcLoop c K).localMaxs.filter
        (fun x => xcThreshold m ≤ x)).length < 2 →
      (xcFinal true (xcLoop c K)).coeffOut = some m) ∧
    (∀ d : ℤ, -K ≤ d → d + 1 < K →
      ((-K < d ∧ c (d - 1) ≤ c d) ∨ (d = -K ∧ -1 ≤ c d)) →
      c (d + 1) < c d → c d ∈ (xcLoop c K).localMaxs) ∧
    (∀ d : ℤ, -K ≤ d → d < K → c d ≤ m) ∧
    (∃ d : ℤ, -K ≤ d ∧ d < K ∧ c d = m) := by
  have hK : 1 ≤ K := by
    by_contra hK
    push_neg at hK
    rw [xcLoop, delayList_nil K (by omega)] at hm
    exact Option.noConfusion hm
  obtain ⟨m0, hm0, hcd, hmem, hub⟩ := xcLoop_max c K hK
  have hmm : m0 = m := by
    rw [hm] at hm0
    exact (Option.some.injEq _ _ ▸ hm0).symm
  subst hmm
  have hrejiff := xcQualityReject_iff (xcThreshold m0)
    (xcLoop c K).localMaxs 0 (by omega)
  have hfin : xcFinal true (xcLoop c K) =
      if true = true ∧ xcQualityReject (xcThreshold m0) 0
          (xcLoop c K).localMaxs = true
      then { xcLoop c K with coeffOut := none } else xcLoop c K := by
    unfold xcFinal
    rw [hm]
  refine ⟨?_, ?_, ?_, ?_, ?_⟩
  · by_cases hrej : xcQualityReject (xcThreshold m0) 0
        (xcLoop c K).localMaxs = true
    · apply iff_of_true
      · rw [hfin, if_pos ⟨rfl, hrej⟩]
      · have := hrejiff.mp hrej
        omega
    · apply iff_of_false
      · rw [hfin, if_neg (by intro h; exact hrej h.2), hm]
        simp
      · intro h2
        exact hrej (hrejiff.mpr (by omega))
  · intro hlen
    have hrej : ¬ xcQualityReject (xcThreshold m0) 0
        (xcLoop c K).localMaxs = true := by
      intro h
      have := hrejiff.mp h
      omega
    rw [hfin, if_neg (by intro h; exact hrej h.2)]
    exact hm
  · intro d hd1 hd2 hd3 hd4
    have hlm : (xcLoop c K).localMaxs =
        walkRecords c (-1) false (delayList K) := by
      rw [xcLoop, xcFold_localMaxs]
      rfl
    rw [hlm]
    unfold delayList
    apply mem_walkRecords c ((2 * K).toNat) (-K) (-1) false d hd1
      (by omega) hd3 hd4
  · intro d hd1 hd2
    exact hub d ((mem_delayList K d).mpr ⟨hd1, hd2⟩)
  · obtain ⟨hd1, hd2⟩ := (mem_delayList K _).mp hmem
    exact ⟨(xcLoop c K).delayOut, hd1, hd2, hcd⟩

/-- Witness for `xcorr_cycle_skipping_rejection`: the constant series 1
over delays `[-1, 0]` (K = 1); no local maxima are recorded, nothing is
rejected, and Cmax = 1. -/
theorem xcorr_cycle_skipping_rejection_witness :
    (((xcFinal true (xcLoop (fun _ => (1 : ℚ)) 1)).coeffOut = none) ↔
      2 ≤ ((xcLoop (fun _ => (1 : ℚ)) 1).localMaxs.filter
        (fun x => xcThreshold 1 ≤ x)).length) ∧
    (((xcLoop (fun _ => (1 : ℚ)) 1).localMaxs.filter
        (fun x => xcThreshold 1 ≤ x)).length < 2 →
      (xcFinal true (xcLoop (fun _ => (1 : ℚ)) 1)).coeffOut = some 1) ∧
    (∀ d : ℤ, -1 ≤ d → d + 1 < 1 →
      ((-1 < d ∧ (1 : ℚ) ≤ 1) ∨ (d = -1 ∧ (-1 : ℚ) ≤ 1)) →
      (1 : ℚ) < 1 → (1 : ℚ) ∈ (xcLoop (fun _ => (1 : ℚ)) 1).localMaxs) ∧
    (∀ d : ℤ, -1 ≤ d → d < 1 → (1 : ℚ) ≤ 1) ∧
    (∃ d : ℤ, -1 ≤ d ∧ d < 1 ∧ (1 : ℚ) = 1) :=
  xcorr_cycle_skipping_rejection (fun _ => (1 : ℚ)) 1 1 (by decide)

/-- The normalized cross-correlation coefficient at a given lag: the inner
`idxS` loop of the trace-level `xcorr`, with `s` the shorter and `l` the
longer trace.  Out-of-bounds lags skip the term in all three sums
(`continue`), so the partial denominators run over valid indices only.
real division by zero yields 0 here where C++ would produce NaN or ±inf;
the theorems below do not depend on that corner (zero-energy windows). -/
noncomputable def coeffAt (s l : List ℝ) (delay : ℤ) : ℝ :=
  let offset : ℤ := ((l.length - s.length) / 2 : ℕ)
  let numer := ∑ i ∈ Finset.range s.length,
    if 0 ≤ (i : ℤ) + offset + delay ∧ (i : ℤ) + offset + delay < (l.length : ℤ)
    then s.getD i 0 * l.getD ((i : ℤ) + offset + delay).toNat 0 else 0
  let denomL := ∑ i ∈ Finset.range s.length,
    if 0 ≤ (i : ℤ) + offset + delay ∧ (i : ℤ) + offset + delay < (l.length : ℤ)
    then l.getD ((i : ℤ) + offset + delay).toNat 0 *
      l.getD ((i : ℤ) + offset + delay).toNat 0 else 0
  let denomS := ∑ i ∈ Finset.range s.length,
    if 0 ≤ (i : ℤ) + offset + delay ∧ (i : ℤ) + offset + delay < (l.length : ℤ)
    then s.getD i 0 * s.getD i 0 else 0
  numer / Real.sqrt (denomS * denomL)

/-- The trace-level `xcorr` (lines 2520-2615).  The sampling-frequency
equality check is outside the model (a single `freq` is carried);
`maxDelaySmps = maxDelay * freq` truncates to int, which equals the floor
for the non-negative products used by the callers (for negative products
both give an empty loop).  `swap = tr1.size() > tr2.size()`. -/
noncomputable def xcorrTrace (tr1 tr2 : List ℝ) (maxDelay freq : ℝ)
    (qualityCheck : Bool) : Option ℝ × ℝ :=
  let K : ℤ := ⌊maxDelay * freq⌋
  let s := if tr2.length < tr1.length then tr2 else tr1
  let l := if tr2.length < tr1.length then tr1 else tr2
  let st := xcFinal qualityCheck (xcLoop (coeffAt s l) K)
  let d : ℝ := (st.delayOut : ℝ) / freq
  (st.coeffOut, if tr2.length < tr1.length then -d else d)

/-- The selection between the two pairing attempts (lines 2488-2499):
```cpp
if ( ! std::isfinite(xcorr_coeff) && ! std::isfinite(xcorr_coeff2) ) return false;
if ( ! std::isfinite(xcorr_coeff) ||
     (std::isfinite(xcorr_coeff2) && xcorr_coeff2 > xcorr_coeff) )
{ xcorr_coeff = xcorr_coeff2; xcorr_dt = xcorr_dt2; }
``` -/
noncomputable def xcPick (a1 a2 : Option ℝ × ℝ) : Option ℝ × ℝ :=
  match a1.1, a2.1 with
  | none, _ => a2
  | some c1, some c2 => if c2 > c1 then a2 else a1
  | some _, none => a1

/-- The tail of the pair-level `xcorr` after the two attempts (lines
2488-2514): pick the better attempt, reject a low coefficient, emit the
differential travel time `tt1 - tt2 - lag` and the weight `coeff²`. -/
noncomputable def xcPickResult (a1 a2 : Option ℝ × ℝ)
    (minCoef tt1 tt2 : ℝ) : Option (ℝ × ℝ) :=
  match (xcPick a1 a2).1 with
  | none => none
  | some c =>
    if c < minCoef then none
    else some (tt1 - tt2 - (xcPick a1 a2).2, c * c)

/-- The pair-level `xcorr` (lines 2407-2515) after the waveforms have been
loaded and trimmed: `tr1`/`tr2` are the long windows of phase 1/2 and
`tr1S`/`tr2S` their short (trimmed) versions; `tt1`/`tt2` the travel times
`phase.time - event.time`.  Attempt 1 (phase 2 trusted: short `tr2S`
against long `tr1`) runs when phase 2 is manual or both are automatic;
attempt 2 symmetrically; both use the quality check. -/
noncomputable def xcorrPair (man1 man2 : Bool) (tr1 tr1S tr2 tr2S : List ℝ)
    (maxDelay freq minCoef tt1 tt2 : ℝ) : Option (ℝ × ℝ) :=
  let a1 := if man2 || (!man1 && !man2)
    then xcorrTrace tr1 tr2S maxDelay freq true else (none, 0)
  let a2 := if man1 || (!man1 && !man2)
    then xcorrTrace tr1S tr2 maxDelay freq true else (none, 0)
  xcPickResult a1 a2 minCoef tt1 tt2

theorem xcFinal_delayOut {α : Type} [LinearOrderedField α] (qc : Bool)
    (st : XcState α) : (xcFinal qc st).delayOut = st.delayOut := by
  unfold xcFinal
  cases st.coeffOut with
  | none => rfl
  | some m => dsimp only; split <;> rfl

/-- Swapping the two traces of the trace-level `xcorr` (when their lengths
differ, so the same short/long assignment results) negates the returned lag
and leaves the coefficient unchanged: only the `swap` flag flips. -/
theorem xcorrTrace_swap (a b : List ℝ) (maxDelay freq : ℝ) (qc : Bool)
    (h : b.length < a.length) :
    (xcorrTrace b a maxDelay freq qc).1 =
      (xcorrTrace a b maxDelay freq qc).1 ∧
    (xcorrTrace b a maxDelay freq qc).2 =
      -(xcorrTrace a b maxDelay freq qc).2 := by
  have h2 : ¬ a.length < b.length := not_lt.mpr (le_of_lt h)
  unfold xcorrTrace
  simp only [if_pos h, if_neg h2]
  exact ⟨trivial, (neg_neg _).symm⟩

theorem xcPick_swap (a1 a2 : Option ℝ × ℝ)
    (hne : ∀ c0 : ℝ, a1.1 = some c0 → a2.1 = some c0 → a1.2 = a2.2)
    (c : ℝ) (h : (xcPick a1 a2).1 = some c) :
    (xcPick (a2.1, -a2.2) (a1.1, -a1.2)).1 = some c ∧
    (xcPick (a2.1, -a2.2) (a1.1, -a1.2)).2 = -(xcPick a1 a2).2 := by
  cases ha1 : a1.1 with
  | none =>
    have e1 : xcPick a1 a2 = a2 := by unfold xcPick; rw [ha1]
    cases ha2 : a2.1 with
    | none =>
      rw [e1, ha2] at h
      exact Option.noConfusion h
    | some c2 =>
      rw [e1] at h
      constructor
      · show some c2 = some c
        rw [← ha2]
        exact h
      · show -a2.2 = -(xcPick a1 a2).2
        rw [e1]
  | some c1 =>
    cases ha2 : a2.1 with
    | none =>
      have e1 : xcPick a1 a2 = a1 := by unfold xcPick; rw [ha1, ha2]
      rw [e1] at h
      constructor
      · show some c1 = some c
        rw [← ha1]
        exact h
      · show -a1.2 = -(xcPick a1 a2).2
        rw [e1]
    | some c2 =>
      have e1 : xcPick a1 a2 = if c2 > c1 then a2 else a1 := by
        unfold xcPick
        rw [ha1, ha2]
      have e2 : xcPick ((some c2 : Option ℝ), -a2.2)
          ((some c1 : Option ℝ), -a1.2) =
          if c1 > c2 then ((some c1 : Option ℝ), -a1.2)
          else ((some c2 : Option ℝ), -a2.2) := rfl
      rw [e1] at h
      rw [e2, e1]
      by_cases hc : c2 > c1
      · rw [if_pos hc] at h ⊢
        rw [if_neg (not_lt.mpr (le_of_lt hc))]
        refine ⟨?_, ?_⟩
        · show some c2 = some c
          rw [← ha2]
          exact h
        · rfl
      · rw [if_neg hc] at h ⊢
        by_cases hc2 : c1 > c2
        · rw [if_pos hc2]
          refine ⟨?_, ?_⟩
          · show some c1 = some c
            rw [← ha1]
            exact h
          · rfl
        · rw [if_neg hc2]
          have hcc : c1 = c2 := le_antisymm (not_lt.mp hc2) (not_lt.mp hc)
          have h12 := hne c1 ha1 (by rw [ha2, hcc])
          refine ⟨?_, ?_⟩
          · show some c2 = some c
            rw [← hcc, ← ha1]
            exact h
          · show -a2.2 = -a1.2
            rw [h12]

theorem xcPickResult_swap (a1 a2 : Option ℝ × ℝ) (minCoef tt1 tt2 : ℝ)
    (hne : ∀ c0 : ℝ, a1.1 = some c0 → a2.1 = some c0 → a1.2 = a2.2)
    (dt w : ℝ) (h : xcPickResult a1 a2 minCoef tt1 tt2 = some (dt, w)) :
    xcPickResult (a2.1, -a2.2) (a1.1, -a1.2) minCoef tt2 tt1 =
      some (-dt, w) := by
  cases hpick : (xcPick a1 a2).1 with
  | none =>
    have hres : xcPickResult a1 a2 minCoef tt1 tt2 = none := by
      unfold xcPickResult
      rw [hpick]
    rw [hres] at h
    exact Option.noConfusion h
  | some c =>
    have hres : xcPickResult a1 a2 minCoef tt1 tt2 =
        if c < minCoef then none
        else some (tt1 - tt2 - (xcPick a1 a2).2, c * c) := by
      unfold xcPickResult
      rw [hpick]
    rw [hres] at h
    by_cases hmin : c < minCoef
    · rw [if_pos hmin] at h
      exact Option.noConfusion h
    · rw [if_neg hmin] at h
      obtain ⟨h1, h2⟩ := xcPick_swap a1 a2 hne c hpick
      have hres2 : xcPickResult (a2.1, -a2.2) (a1.1, -a1.2) minCoef tt2 tt1 =
          if c < minCoef then none
          else some (tt2 - tt1 - (xcPick (a2.1, -a2.2) (a1.1, -a1.2)).2,
            c * c) := by
        unfold xcPickResult
        rw [h1]
      rw [hres2, if_neg hmin, h2]
      have hpair := Option.some.injEq _ _ ▸ h
      have hdt : tt1 - tt2 - (xcPick a1 a2).2 = dt := congrArg Prod.fst hpair
      have hw : c * c = w := congrArg Prod.snd hpair
      rw [hw]
      have : tt2 - tt1 - -(xcPick a1 a2).2 = -dt := by
        rw [← hdt]
        ring
      rw [this]

/-- C3 (amended): for phases of the same type (hence the same
configuration), with genuinely distinct short/long trace lengths in both
pairings, and provided the two attempted pairings do not tie with equal
coefficients but different lags (`hne`; automatic when exactly one pick is
manual, since only one pairing is attempted), swapping the two
(event, phase) arguments of the pair-level cross-correlation negates the
returned differential travel time and leaves the weight (coefficient²)
unchanged; and at the trace level, swapping the short and the long trace
negates the returned lag and leaves the returned coefficient unchanged. -/
theorem xcorr_swap_antisymmetry (man1 man2 : Bool)
    (tr1 tr1S tr2 tr2S : List ℝ) (maxDelay freq minCoef tt1 tt2 : ℝ)
    (hlen1 : tr2S.length < tr1.length) (hlen2 : tr1S.length < tr2.length)
    (hne : ∀ c0 : ℝ, (xcorrTrace tr1 tr2S maxDelay freq true).1 = some c0 →
      (xcorrTrace tr1S tr2 maxDelay freq true).1 = some c0 →
      (xcorrTrace tr1 tr2S maxDelay freq true).2 =
        (xcorrTrace tr1S tr2 maxDelay freq true).2) :
    ((xcorrTrace tr2S tr1 maxDelay freq true).1 =
        (xcorrTrace tr1 tr2S maxDelay freq true).1 ∧
      (xcorrTrace tr2S tr1 maxDelay freq true).2 =
        -(xcorrTrace tr1 tr2S maxDelay freq true).2) ∧
    (∀ dt w : ℝ,
      xcorrPair man1 man2 tr1 tr1S tr2 tr2S maxDelay freq minCoef tt1 tt2 =
        some (dt, w) →
      xcorrPair man2 man1 tr2 tr2S tr1 tr1S maxDelay freq minCoef tt2 tt1 =
        some (-dt, w)) := by
  refine ⟨xcorrTrace_swap tr1 tr2S maxDelay freq true hlen1, ?_⟩
  intro dt w h
  have hswap1 := xcorrTrace_swap tr1 tr2S maxDelay freq true hlen1
  have hswap2 := xcorrTrace_swap tr2 tr1S maxDelay freq true hlen2
  -- name the four attempts
  set b1 := xcorrTrace tr1 tr2S maxDelay freq true with hb1
  set b2 := xcorrTrace tr1S tr2 maxDelay freq true with hb2
  -- the attempts of the original and of the swapped call, by manual flags
  have hcall : xcorrPair man1 man2 tr1 tr1S tr2 tr2S maxDelay freq minCoef
      tt1 tt2 = xcPickResult
        (if man2 || (!man1 && !man2) then b1 else (none, 0))
        (if man1 || (!man1 && !man2) then b2 else (none, 0))
        minCoef tt1 tt2 := rfl
  have hcall' : xcorrPair man2 man1 tr2 tr2S tr1 tr1S maxDelay freq minCoef
      tt2 tt1 = xcPickResult
        (if man1 || (!man2 && !man1) then xcorrTrace tr2 tr1S maxDelay freq true
         else (none, 0))
        (if man2 || (!man2 && !man1) then xcorrTrace tr2S tr1 maxDelay freq true
         else (none, 0))
        minCoef tt2 tt1 := rfl
  set a1 := if man2 || (!man1 && !man2) then b1 else ((none : Option ℝ), (0 : ℝ))
    with ha1
  set a2 := if man1 || (!man1 && !man2) then b2 else ((none : Option ℝ), (0 : ℝ))
    with ha2
  -- the swapped call's attempts are the sign-reversed originals
  have hrev1 : (if man1 || (!man2 && !man1) then
      xcorrTrace tr2 tr1S maxDelay freq true else ((none : Option ℝ), (0 : ℝ)))
      = (a2.1, -a2.2) := by
    cases man1 <;> cases man2 <;>
      simp only [ha2, Bool.not_true, Bool.not_false, Bool.and_self,
        Bool.true_or, Bool.false_or, Bool.true_and, Bool.false_and,
        Bool.and_true, Bool.and_false, Bool.or_true, Bool.or_false,
        Bool.or_self, if_true, if_false, ite_true, ite_false] <;>
      first
        | exact Prod.ext hswap2.1.symm (by rw [hswap2.2, neg_neg])
        | exact Prod.ext rfl neg_zero.symm
  have hrev2 : (if man2 || (!man2 && !man1) then
      xcorrTrace tr2S tr1 maxDelay freq true else ((none : Option ℝ), (0 : ℝ)))
      = (a1.1, -a1.2) := by
    cases man1 <;> cases man2 <;>
      simp only [ha1, Bool.not_true, Bool.not_false, Bool.and_self,
        Bool.true_or, Bool.false_or, Bool.true_and, Bool.false_and,
        Bool.and_true, Bool.and_false, Bool.or_true, Bool.or_false,
        Bool.or_self, if_true, if_false, ite_true, ite_false] <;>
      first
        | exact Prod.ext hswap1.1 hswap1.2
        | exact Prod.ext rfl neg_zero.symm
  have hne' : ∀ c0 : ℝ, a1.1 = some c0 → a2.1 = some c0 → a1.2 = a2.2 := by
    intro c0 h1 h2
    rw [ha1] at h1 ⊢
    rw [ha2] at h2 ⊢
    cases man1 <;> cases man2 <;>
      simp only [Bool.not_true, Bool.not_false, Bool.and_self, Bool.true_or,
        Bool.false_or, Bool.true_and, Bool.false_and, Bool.and_true,
        Bool.and_false, Bool.or_true, Bool.or_false, Bool.or_self, if_true,
        if_false, ite_true, ite_false] at h1 h2 ⊢ <;>
      first
        | exact hne c0 h1 h2
        | exact Option.noConfusion h1
        | exact Option.noConfusion h2
  rw [hcall'] at *
  rw [hrev1, hrev2]
  rw [hcall] at h
  exact xcPickResult_swap a1 a2 minCoef tt1 tt2 hne' dt w h

/-- C4 (amended): the trace-level `xcorr` evaluates the normalized
cross-correlation at the integer lags of the HALF-OPEN range `[-K, K)`
with `K = ⌊maxDelay * freq⌋` - lag `+K` itself is never evaluated, unlike
the claim's inclusive `[-K, K]` - and the returned delay is (the seconds
conversion of, sign-flipped when the traces were swapped) a lag in that
half-open range attaining the maximum coefficient over it. -/
theorem xcorr_lag_range (tr1 tr2 s l : List ℝ) (maxDelay freq : ℝ)
    (qc : Bool) (K : ℤ) (hK : K = ⌊maxDelay * freq⌋) (hK1 : 1 ≤ K)
    (hs : s = if tr2.length < tr1.length then tr2 else tr1)
    (hl : l = if tr2.length < tr1.length then tr1 else tr2) :
    ∃ m : ℝ, (xcLoop (coeffAt s l) K).coeffOut = some m ∧
      -K ≤ (xcLoop (coeffAt s l) K).delayOut ∧
      (xcLoop (coeffAt s l) K).delayOut < K ∧
      coeffAt s l (xcLoop (coeffAt s l) K).delayOut = m ∧
      (∀ k : ℤ, -K ≤ k → k < K → coeffAt s l k ≤ m) ∧
      (xcorrTrace tr1 tr2 maxDelay freq qc).2 =
        (if tr2.length < tr1.length
         then -(((xcLoop (coeffAt s l) K).delayOut : ℝ) / freq)
         else ((xcLoop (coeffAt s l) K).delayOut : ℝ) / freq) := by
  subst hs hl hK
  obtain ⟨m, h1, h2, h3, h4⟩ := xcLoop_max
    (coeffAt (if tr2.length < tr1.length then tr2 else tr1)
      (if tr2.length < tr1.length then tr1 else tr2)) ⌊maxDelay * freq⌋ hK1
  obtain ⟨hd1, hd2⟩ := (mem_delayList _ _).mp h3
  refine ⟨m, h1, hd1, hd2, h2, ?_, ?_⟩
  · intro k hk1 hk2
    exact h4 k ((mem_delayList _ _).mpr ⟨hk1, hk2⟩)
  · show (xcorrTrace tr1 tr2 maxDelay freq qc).2 = _
    simp only [xcorrTrace]
    rw [xcFinal_delayOut]

/-! Concrete evaluations of the trace-level cross-correlation, used by the
counterexamples and witnesses below.  All sample values are ±1 so that the
normalizing square root is exact. -/

theorem xcorrTraceEval1 :
    xcorrTrace [1] [-1, -1, 1] 1 1 false = (some (-1), -1) := by
  have hc1 : coeffAt [1] [-1, -1, 1] (-1) = -1 := by
    unfold coeffAt; norm_num [Finset.sum_range_succ, List.getD]
  have hc0 : coeffAt [1] [-1, -1, 1] 0 = -1 := by
    unfold coeffAt; norm_num [Finset.sum_range_succ, List.getD]
  have hloop : xcLoop (coeffAt [1] [-1, -1, 1]) 1 =
      ⟨some (-1), -1, [], true, -1⟩ := by
    rw [xcLoop]
    have hdl : delayList 1 = [-1, 0] := by decide
    rw [hdl]
    simp only [List.foldl_cons, List.foldl_nil]
    rw [hc1, hc0]
    unfold xcStep xcMaxUpdate xcInit
    norm_num
  unfold xcorrTrace
  have hK : ⌊(1 : ℝ) * 1⌋ = 1 := by norm_num
  rw [hK]
  norm_num [hloop, xcFinal]

theorem xcorrTraceEval2 :
    xcorrTrace [-1, 1, 1] [1] 1 1 true = (some 1, 0) := by
  have hc1 : coeffAt [1] [-1, 1, 1] (-1) = -1 := by
    unfold coeffAt; norm_num [Finset.sum_range_succ, List.getD]
  have hc0 : coeffAt [1] [-1, 1, 1] 0 = 1 := by
    unfold coeffAt; norm_num [Finset.sum_range_succ, List.getD]
  have hloop : xcLoop (coeffAt [1] [-1, 1, 1]) 1 =
      ⟨some 1, 0, [], true, 1⟩ := by
    rw [xcLoop]
    have hdl : delayList 1 = [-1, 0] := by decide
    rw [hdl]
    simp only [List.foldl_cons, List.foldl_nil]
    rw [hc1, hc0]
    unfold xcStep xcMaxUpdate xcInit
    norm_num
  unfold xcorrTrace
  have hK : ⌊(1 : ℝ) * 1⌋ = 1 := by norm_num
  rw [hK]
  norm_num [hloop, xcFinal, xcQualityReject]

theorem xcorrTraceEval3 :
    xcorrTrace [1] [1, -1, 1] 1 1 true = (some 1, -1) := by
  have hc1 : coeffAt [1] [1, -1, 1] (-1) = 1 := by
    unfold coeffAt; norm_num [Finset.sum_range_succ, List.getD]
  have hc0 : coeffAt [1] [1, -1, 1] 0 = -1 := by
    unfold coeffAt; norm_num [Finset.sum_range_succ, List.getD]
  have hloop : xcLoop (coeffAt [1] [1, -1, 1]) 1 =
      ⟨some 1, -1, [1], false, -1⟩ := by
    rw [xcLoop]
    have hdl : delayList 1 = [-1, 0] := by decide
    rw [hdl]
    simp only [List.foldl_cons, List.foldl_nil]
    rw [hc1, hc0]
    unfold xcStep xcMaxUpdate xcInit
    norm_num
  unfold xcorrTrace
  have hK : ⌊(1 : ℝ) * 1⌋ = 1 := by norm_num
  rw [hK]
  norm_num [hloop, xcFinal, xcQualityReject, xcThreshold]

theorem xcorrTraceEval4 :
    xcorrTrace [1, -1, 1] [1] 1 1 true = (some 1, 1) := by
  have hc1 : coeffAt [1] [1, -1, 1] (-1) = 1 := by
    unfold coeffAt; norm_num [Finset.sum_range_succ, List.getD]
  have hc0 : coeffAt [1] [1, -1, 1] 0 = -1 := by
    unfold coeffAt; norm_num [Finset.sum_range_succ, List.getD]
  have hloop : xcLoop (coeffAt [1] [1, -1, 1]) 1 =
      ⟨some 1, -1, [1], false, -1⟩ := by
    rw [xcLoop]
    have hdl : delayList 1 = [-1, 0] := by decide
    rw [hdl]
    simp only [List.foldl_cons, List.foldl_nil]
    rw [hc1, hc0]
    unfold xcStep xcMaxUpdate xcInit
    norm_num
  unfold xcorrTrace
  have hK : ⌊(1 : ℝ) * 1⌋ = 1 := by norm_num
  rw [hK]
  norm_num [hloop, xcFinal, xcQualityReject, xcThreshold]

theorem xcorrTraceEval5 :
    xcorrTrace [1] [-1, 1, 1] 1 1 true = (some 1, 0) := by
  have hc1 : coeffAt [1] [-1, 1, 1] (-1) = -1 := by
    unfold coeffAt; norm_num [Finset.sum_range_succ, List.getD]
  have hc0 : coeffAt [1] [-1, 1, 1] 0 = 1 := by
    unfold coeffAt; norm_num [Finset.sum_range_succ, List.getD]
  have hloop : xcLoop (coeffAt [1] [-1, 1, 1]) 1 =
      ⟨some 1, 0, [], true, 1⟩ := by
    rw [xcLoop]
    have hdl : delayList 1 = [-1, 0] := by decide
    rw [hdl]
    simp only [List.foldl_cons, List.foldl_nil]
    rw [hc1, hc0]
    unfold xcStep xcMaxUpdate xcInit
    norm_num
  unfold xcorrTrace
  have hK : ⌊(1 : ℝ) * 1⌋ = 1 := by norm_num
  rw [hK]
  norm_num [hloop, xcFinal, xcQualityReject]

theorem xcorrTraceEval6 :
    xcorrTrace [1] [-1, -1, -1] 1 1 true = (some (-1), -1) := by
  have hc1 : coeffAt [1] [-1, -1, -1] (-1) = -1 := by
    unfold coeffAt; norm_num [Finset.sum_range_succ, List.getD]
  have hc0 : coeffAt [1] [-1, -1, -1] 0 = -1 := by
    unfold coeffAt; norm_num [Finset.sum_range_succ, List.getD]
  have hloop : xcLoop (coeffAt [1] [-1, -1, -1]) 1 =
      ⟨some (-1), -1, [], true, -1⟩ := by
    rw [xcLoop]
    have hdl : delayList 1 = [-1, 0] := by decide
    rw [hdl]
    simp only [List.foldl_cons, List.foldl_nil]
    rw [hc1, hc0]
    unfold xcStep xcMaxUpdate xcInit
    norm_num
  unfold xcorrTrace
  have hK : ⌊(1 : ℝ) * 1⌋ = 1 := by norm_num
  rw [hK]
  norm_num [hloop, xcFinal, xcQualityReject]

/-- C4 counterexample: with the single-sample short trace `[1]` and the
long trace `[-1, -1, 1]` at `maxDelay = 1`, `freq = 1` (so K = 1), the
code evaluates only lags -1 and 0 (both coefficients -1) and returns
delay -1 s with coefficient -1; but lag +1 = K, which belongs to the
claim's inclusive range `[-K, K]`, has coefficient +1 - so the returned
delay is NOT the lag attaining the maximum coefficient over `[-K, K]`,
refuting the claim. -/
theorem xcorr_lag_range_claim_false :
    (xcorrTrace [1] [-1, -1, 1] 1 1 false).1 = some (-1) ∧
    (xcorrTrace [1] [-1, -1, 1] 1 1 false).2 = -1 ∧
    coeffAt [1] [-1, -1, 1] 1 = 1 ∧
    ((1 : ℤ) = ⌊(1 : ℝ) * 1⌋) ∧
    ¬ (∀ k : ℤ, -1 ≤ k → k ≤ 1 → coeffAt [1] [-1, -1, 1] k ≤ -1) := by
  have hc : coeffAt [1] [-1, -1, 1] 1 = 1 := by
    unfold coeffAt
    norm_num [Finset.sum_range_succ, List.getD,
      (show ((2 : ℤ)).toNat = 2 from rfl)]
  refine ⟨by rw [xcorrTraceEval1], by rw [xcorrTraceEval1], hc,
    by norm_num, ?_⟩
  intro hall
  have := hall 1 (by norm_num) (by norm_num)
  rw [hc] at this
  norm_num at this

/-- Witness for `xcorr_lag_range`: same traces as the counterexample. -/
theorem xcorr_lag_range_witness :
    ((1 : ℤ) = ⌊(1 : ℝ) * 1⌋) ∧ ((1 : ℤ) ≤ 1) ∧
    (([1] : List ℝ) =
      if ([-1, -1, 1] : List ℝ).length < ([1] : List ℝ).length
      then [-1, -1, 1] else [1]) ∧
    (([-1, -1, 1] : List ℝ) =
      if ([-1, -1, 1] : List ℝ).length < ([1] : List ℝ).length
      then [1] else [-1, -1, 1]) ∧
    ∃ m : ℝ, (xcLoop (coeffAt [1] [-1, -1, 1]) 1).coeffOut = some m ∧
      -1 ≤ (xcLoop (coeffAt [1] [-1, -1, 1]) 1).delayOut ∧
      (xcLoop (coeffAt [1] [-1, -1, 1]) 1).delayOut < 1 ∧
      coeffAt [1] [-1, -1, 1]
        (xcLoop (coeffAt [1] [-1, -1, 1]) 1).delayOut = m ∧
      (∀ k : ℤ, -1 ≤ k → k < 1 → coeffAt [1] [-1, -1, 1] k ≤ m) ∧
      (xcorrTrace [1] [-1, -1, 1] 1 1 false).2 =
        (if ([-1, -1, 1] : List ℝ).length < ([1] : List ℝ).length
         then -(((xcLoop (coeffAt [1] [-1, -1, 1]) 1).delayOut : ℝ) / 1)
         else ((xcLoop (coeffAt [1] [-1, -1, 1]) 1).delayOut : ℝ) / 1) :=
  ⟨by norm_num, by norm_num, by norm_num, by norm_num,
    xcorr_lag_range [1] [-1, -1, 1] [1] [-1, -1, 1] 1 1 false 1
      (by norm_num) (by norm_num) (by norm_num) (by norm_num)⟩

/-- C3 counterexample: both picks manual, `tr1 = [-1, 1, 1]`,
`tr1S = [1]`, `tr2 = [1, -1, 1]`, `tr2S = [1]`, `maxDelay = freq = 1`,
`minCoef = 1/2`, equal travel times.  Both pairings reach the same
coefficient 1 but with different lags (0 s and -1 s); the tie is broken in
favor of the first attempt, which is a DIFFERENT pairing in the swapped
call, so the swapped call returns dt = -1 instead of the claimed
-dt = -0 = 0 (the coefficient is unchanged).  This refutes "for every pair
... swapping negates the differential travel time". -/
theorem xcorr_swap_claim_false :
    xcorrPair true true [-1, 1, 1] [1] [1, -1, 1] [1] 1 1 (1 / 2) 0 0 =
      some (0, 1) ∧
    xcorrPair true true [1, -1, 1] [1] [-1, 1, 1] [1] 1 1 (1 / 2) 0 0 =
      some (-1, 1) ∧
    ((-1 : ℝ) ≠ -(0 : ℝ)) := by
  refine ⟨?_, ?_, by norm_num⟩
  · unfold xcorrPair
    norm_num [xcorrTraceEval2, xcorrTraceEval3]
    unfold xcPickResult xcPick
    norm_num
  · unfold xcorrPair
    norm_num [xcorrTraceEval4, xcorrTraceEval5]
    unfold xcPickResult xcPick
    norm_num

/-- Witness for `xcorr_swap_antisymmetry`: both picks manual,
`tr1 = [-1, 1, 1]`, `tr1S = [1]`, `tr2 = [-1, -1, -1]`, `tr2S = [1]`;
the two pairings give distinct coefficients (1 and -1), so the no-tie
hypothesis holds. -/
theorem xcorr_swap_antisymmetry_witness :
    (([1] : List ℝ).length < ([-1, 1, 1] : List ℝ).length) ∧
    (([1] : List ℝ).length < ([-1, -1, -1] : List ℝ).length) ∧
    (∀ c0 : ℝ, (xcorrTrace [-1, 1, 1] [1] 1 1 true).1 = some c0 →
      (xcorrTrace [1] [-1, -1, -1] 1 1 true).1 = some c0 →
      (xcorrTrace [-1, 1, 1] [1] 1 1 true).2 =
        (xcorrTrace [1] [-1, -1, -1] 1 1 true).2) ∧
    (((xcorrTrace [1] [-1, 1, 1] 1 1 true).1 =
        (xcorrTrace [-1, 1, 1] [1] 1 1 true).1 ∧
      (xcorrTrace [1] [-1, 1, 1] 1 1 true).2 =
        -(xcorrTrace [-1, 1, 1] [1] 1 1 true).2) ∧
    (∀ dt w : ℝ,
      xcorrPair true true [-1, 1, 1] [1] [-1, -1, -1] [1] 1 1 (1 / 2) 5 3 =
        some (dt, w) →
      xcorrPair true true [-1, -1, -1] [1] [-1, 1, 1] [1] 1 1 (1 / 2) 3 5 =
        some (-dt, w))) := by
  have hne : ∀ c0 : ℝ, (xcorrTrace [-1, 1, 1] [1] 1 1 true).1 = some c0 →
      (xcorrTrace [1] [-1, -1, -1] 1 1 true).1 = some c0 →
      (xcorrTrace [-1, 1, 1] [1] 1 1 true).2 =
        (xcorrTrace [1] [-1, -1, -1] 1 1 true).2 := by
    intro c0 h1 h2
    rw [xcorrTraceEval2] at h1
    rw [xcorrTraceEval6] at h2
    simp only [Prod.fst] at h1 h2
    rw [Option.some.injEq] at h1 h2
    rw [← h1] at h2
    norm_num at h2
  exact ⟨by norm_num, by norm_num, hne,
    xcorr_swap_antisymmetry true true [-1, 1, 1] [1] [-1, -1, -1] [1]
      1 1 (1 / 2) 5 3 (by norm_num) (by norm_num) hne⟩

end Scrtdd
